import Mathlib

/-!
Verification development for the ONDRLax repository slice: the cut-set
congestion estimator (capacity_bound_estimation/cutsets_bounds.py) and the
training utilities library (xlron/train/train_utils.py), shallowly embedded
in Lean. Numeric arrays are modelled as lists or functions over the rational
numbers; JAX loop combinators (jax.lax.fori_loop, jax.lax.scan) are modelled
as folds and iterates. Components outside this slice (environment
constructors, env.step) are modelled from the specification where noted.
-/

/-! ## Definitions: training utilities (xlron/train/train_utils.py) -/

/-- Optimizer transform interface (optax.GradientTransformation): an init
routine producing the optimizer state from the params, and an update routine
mapping (gradients, optimizer state, params) to (updates, new optimizer
state). -/
structure GradientTransformation (P S : Type) where
  init : P → S
  update : P → S → P → P × S

/-- Parameter pytree as consumed by TrainState: `base` is the ordinary
parameter subtree (the dict entry under the params key when the
OVERWRITE_WITH_GRADIENT key is present, the whole tree otherwise), and `owg`
is the OVERWRITE_WITH_GRADIENT entry exactly when that key is present. -/
structure ParamsTree (P : Type) where
  base : P
  owg : Option P

/-- TrainState record from train_utils.py: step counter, forward function
reference, params, optimizer transform and optimizer state. -/
structure TrainState (P S A : Type) where
  step : Nat
  apply_fn : A
  params : ParamsTree P
  tx : GradientTransformation P S
  opt_state : S

/-- Runtime semantics of optax.apply_updates: params combined with updates
additively. -/
def optax_apply_updates {P : Type} [Add P] (params updates : P) : P := params + updates

/-- TrainState.apply_gradients (no extra keyword overrides): computes
updates and a new optimizer state from tx.update on the ordinary subtree,
applies them with optax.apply_updates, overwrites the OVERWRITE_WITH_GRADIENT
subtree with the raw gradient when that key is present in the gradients, and
returns a copy with step incremented by one. -/
def TrainState.apply_gradients {P S A : Type} [Add P]
    (ts : TrainState P S A) (grads : ParamsTree P) : TrainState P S A :=
  let grads_with_opt := grads.base
  let params_with_opt := ts.params.base
  let us := ts.tx.update grads_with_opt ts.opt_state params_with_opt
  let new_params_with_opt := optax_apply_updates params_with_opt us.1
  let new_params : ParamsTree P :=
    match grads.owg with
    | some g => ⟨new_params_with_opt, some g⟩
    | none => ⟨new_params_with_opt, ts.params.owg⟩
  { ts with step := ts.step + 1, params := new_params, opt_state := us.2 }

/-- TrainState.create: step starts at 0 and opt_state is tx.init applied to
the params (excluding the OVERWRITE_WITH_GRADIENT subtree when present). -/
def TrainState.create {P S A : Type}
    (apply_fn : A) (params : ParamsTree P) (tx : GradientTransformation P S) :
    TrainState P S A :=
  { step := 0, apply_fn := apply_fn, params := params, tx := tx,
    opt_state := tx.init params.base }

/-- N successive apply_gradients calls with the same gradient tree. -/
def TrainState.apply_gradients_iter {P S A : Type} [Add P]
    (ts : TrainState P S A) (grads : ParamsTree P) : Nat → TrainState P S A
  | 0 => ts
  | k + 1 => (TrainState.apply_gradients_iter ts grads k).apply_gradients grads

/-- Runtime (forward-pass) semantics of jax.lax.stop_gradient: the identity
on the value. -/
def stop_gradient (x : ℚ) : ℚ := x

/-- scale_gradient from train_utils.py, elementwise on an array:
g * scale + stop_gradient(g) * (1 - scale). -/
def scale_gradient (g : List ℚ) (scale : ℚ) : List ℚ :=
  g.map (fun x => x * scale + stop_gradient x * (1 - scale))

/-- Logit masking jnp.where(mask, logits, -1e8) used by select_action. -/
def masked_logits (logits : List ℚ) (mask : List Bool) : List ℚ :=
  (logits.zip mask).map (fun p => if p.2 then p.1 else -100000000)

/-- Index scan behind jnp.argmax: current index, best index so far, best
value so far; updates only on a strictly greater value, so the first
occurrence of the maximum wins. -/
def argmax_from (i best : Nat) (bestVal : ℚ) : List ℚ → Nat
  | [] => best
  | x :: xs =>
      if bestVal < x then argmax_from (i + 1) i x xs
      else argmax_from (i + 1) best bestVal xs

/-- Mode of a distrax Categorical over the given logits: jnp.argmax (index
of the largest logit, first occurrence on ties); 0 for the empty list. -/
def categorical_mode (logits : List ℚ) : Nat :=
  match logits with
  | [] => 0
  | x :: xs => argmax_from 1 0 x xs

/-- Action returned by the ACTION_MASKING branch of select_action when
config.deterministic is set and the environment is not VONE: the code takes
the mode of pi[0] (the unmasked distribution), ignoring the masked
distribution pi_masked it built. -/
def select_action_masked_det (logits : List ℚ) (_mask : List Bool) : Nat :=
  categorical_mode logits

/-- Action the claim describes for the same configuration: the mode of the
masked categorical distribution. -/
def claim_masked_mode (logits : List ℚ) (mask : List Bool) : Nat :=
  categorical_mode (masked_logits logits mask)

/-- Environment constructor family. -/
inductive EnvKind
  | vone
  | rsaFamily
deriving DecidableEq

/-- Environment value: constructor family plus whether the episode-statistics
LogWrapper layer has been applied. -/
structure ModEnv where
  kind : EnvKind
  log_wrapped : Bool

/-- Environment parameters value. -/
structure ModEnvParams where
  kind : EnvKind

/-- Modelled from the spec: make_vone_env (xlron.environments.vone, outside
this slice) builds the virtual-network-embedding environment and its
parameters and returns normally. -/
def make_vone_env : ModEnv × ModEnvParams := (⟨EnvKind.vone, false⟩, ⟨EnvKind.vone⟩)

/-- Modelled from the spec: make_rsa_env (xlron.environments.rsa, outside
this slice) builds the RSA-family environment and its parameters and returns
normally. -/
def make_rsa_env : ModEnv × ModEnvParams := (⟨EnvKind.rsaFamily, false⟩, ⟨EnvKind.rsaFamily⟩)

/-- Modelled from the spec: LogWrapper (xlron.environments.wrappers, outside
this slice) wraps an environment with the episode-statistics-accumulating
layer. -/
def LogWrapper (e : ModEnv) : ModEnv := { e with log_wrapped := true }

/-- ASCII lower-casing of one character, the effect of Python str.lower on
the characters occurring in env_type values. -/
def char_lower (c : Char) : Char :=
  if 'A' ≤ c ∧ c ≤ 'Z' then Char.ofNat (c.toNat + 32) else c

/-- Python str.lower over the env_type string, as its character list. -/
def str_lower (s : String) : List Char := s.data.map char_lower

/-- The RSA-family env_type strings accepted by define_env. -/
def rsa_family_types : List String := ["rsa", "rmsa", "rwa", "deeprmsa", "rwa_lightpath_reuse"]

/-- define_env from train_utils.py: dispatch on the lower-cased env_type,
raising ValueError (modelled as Except.error) on anything unrecognized, and
wrapping the environment in LogWrapper before returning it. -/
def define_env (env_type : String) : Except String (ModEnv × ModEnvParams) :=
  if str_lower env_type = "vone".data then
    let ep := make_vone_env
    Except.ok (LogWrapper ep.1, ep.2)
  else if str_lower env_type ∈ rsa_family_types.map String.data then
    let ep := make_rsa_env
    Except.ok (LogWrapper ep.1, ep.2)
  else
    Except.error ("Invalid environment type " ++ env_type)

/-- jax.lax.fori_loop lower upper body x: applies body at indices lower,
lower + 1, ..., upper - 1, threading the carry. -/
def fori_loop {α : Type} (lower upper : Nat) (body : Nat → α → α) (x : α) : α :=
  (List.range' lower (upper - lower)).foldl (fun v i => body i v) x

/-- Closure returned by get_warmup_fn: runs config.ENV_WARMUP_STEPS
iterations of the warmup step over the carried tuple
(rng, state, params, train_state, last_obs) and returns the final
(state, last_obs). The body (select_action followed by env.step, with the
observation re-derived) is abstracted as warmup_step because env.step is
external to this slice; the claim under verification holds for every body. -/
def warmup_fn {R S P T O : Type} (env_warmup_steps : Nat)
    (warmup_step : Nat → R × S × P × T × O → R × S × P × T × O)
    (rng : R) (state : S) (params : P) (train_state : T) (last_obs : O) : S × O :=
  let vals := fori_loop 0 env_warmup_steps warmup_step (rng, state, params, train_state, last_obs)
  (vals.2.1, vals.2.2.2.2)

/-! ## Definitions: estimator post-processing (main_jax, cutsets_bounds.py) -/

/-- Indices retained by jnp.unique(cutset_edges, axis=0, return_index=True):
for each distinct row value, the index of its first occurrence in the
original array. (jnp.unique returns the unique rows sorted; the set of
retained indices does not depend on that order, and the subsequent top-k
selection is by congestion value.) -/
def kept_indices (rows : List (List ℚ)) : List Nat :=
  (List.range rows.length).filter
    (fun i => decide (∀ j, j < i → rows.getD j [] ≠ rows.getD i []))

/-- Deduplicated (congestion, partition1, partition2, cutset_edges) records:
each retained index carries forward its own congestion and partitions, as in
congestions[unique_indices] and partition1[unique_indices]. -/
def dedup_records (congs : List ℚ) (p1s p2s rows : List (List ℚ)) :
    List (ℚ × List ℚ × List ℚ × List ℚ) :=
  (kept_indices rows).map
    (fun i => (congs.getD i 0, p1s.getD i [], p2s.getD i [], rows.getD i []))

/-- Final selection jnp.argsort(congestions)[-top_k:] over the deduplicated
records: sort ascending by congestion and keep the last top_k entries. -/
def top_k_select (top_k : Nat) (records : List (ℚ × List ℚ × List ℚ × List ℚ)) :
    List (ℚ × List ℚ × List ℚ × List ℚ) :=
  let sorted := records.insertionSort (fun a b => a.1 ≤ b.1)
  sorted.drop (sorted.length - top_k)

/-! ## Definitions: Gray-code mask generation (cutsets_bounds.py) -/

/-- Gray code used by generate_gray_code_masks: k XOR (k >> 1). -/
def gray (k : Nat) : Nat := k ^^^ (k >>> 1)

/-- generate_gray_code_masks from cutsets_bounds.py: row i holds the
n_nodes binary digits, most-significant first, of gray(i + start), computed
as (gray // 2^(n_nodes-1-b)) % 2 at column b. -/
def generate_gray_code_masks (n_nodes max_batch_size start : Nat) : List (List Nat) :=
  (List.range max_batch_size).map (fun i =>
    (List.range n_nodes).map (fun b => gray (i + start) / 2 ^ (n_nodes - 1 - b) % 2))

/-! ## Definitions: cut-set scoring (cutsets_bounds.py) -/

/-- Single-entry overwrite, the effect of jax.lax.dynamic_update_slice with
a 1x1 update at position (s, d). All call sites keep indices within the
array bounds, so the out-of-bounds index clamping of dynamic_update_slice
never fires and is not modelled. -/
def dyn_update (A : ℕ → ℕ → ℚ) (s d : ℕ) (v : ℚ) : ℕ → ℕ → ℚ :=
  fun i j => if i = s ∧ j = d then v else A i j

/-- edges_to_adjacency from cutsets_bounds.py: starting from the zero
matrix, a fori_loop over the entries of path_array scatters the value
path_array[idx] at (source[idx], dest[idx]) and (dest[idx], source[idx]).
The num_nodes argument fixes the array shape in the source and is carried
for fidelity. -/
def edges_to_adjacency (path_array : List ℚ) (source_nodes dest_nodes : List ℕ)
    (num_nodes : ℕ) : ℕ → ℕ → ℚ :=
  (List.range path_array.length).foldl
    (fun adj idx =>
      let s := source_nodes.getD idx 0
      let d := dest_nodes.getD idx 0
      let v := path_array.getD idx 0
      dyn_update (dyn_update adj s d v) d s v)
    (fun _ _ => 0)

/-- jnp.min over the concatenated source and dest node arrays; the code
negates it to build the index offset used by find_cutset_edges. -/
def min_node (source_nodes dest_nodes : List ℕ) : ℕ :=
  match source_nodes ++ dest_nodes with
  | [] => 0
  | x :: xs => xs.foldl Nat.min x

/-- find_cutset_edges from cutsets_bounds.py: per-edge 0/1 indicator of
logical_or(logical_and(p1[u], p2[v]), logical_and(p1[v], p2[u])), where the
endpoints are shifted down by the minimum node id (the code adds
offset = -min). JAX logical operations treat any nonzero value as true. -/
def find_cutset_edges (p1 p2 : ℕ → ℚ) (source_nodes dest_nodes : List ℕ) : List ℚ :=
  let offset := min_node source_nodes dest_nodes
  (source_nodes.zip dest_nodes).map (fun e =>
    if (p1 (e.1 - offset) ≠ 0 ∧ p2 (e.2 - offset) ≠ 0) ∨
        (p1 (e.2 - offset) ≠ 0 ∧ p2 (e.1 - offset) ≠ 0)
    then (1 : ℚ) else 0)

/-- calculate_congestion from cutsets_bounds.py: cutset edge indicators are
scattered to a matrix and summed (cut_size), crossing traffic is
traffic * outer(partition1, partition2) summed, congestion is their ratio
guarded against an empty cut, and the result is zeroed unless every node of
each partition keeps a positive same-partition column sum in the adjacency
with the cut matrix subtracted. num_nodes is the adjacency row count. -/
def calculate_congestion (partition_mask : ℕ → ℚ)
    (adjacency_matrix traffic_matrix : ℕ → ℕ → ℚ)
    (source_nodes dest_nodes : List ℕ) (num_nodes : ℕ) : ℚ :=
  let partition1 := partition_mask
  let partition2 := fun i => 1 - partition_mask i
  let edges := find_cutset_edges partition1 partition2 source_nodes dest_nodes
  let cut_matrix := edges_to_adjacency edges source_nodes dest_nodes num_nodes
  let cut_size := ∑ i ∈ Finset.range num_nodes, ∑ j ∈ Finset.range num_nodes, cut_matrix i j
  let traffic_across_cut := ∑ i ∈ Finset.range num_nodes, ∑ j ∈ Finset.range num_nodes,
    traffic_matrix i j * (partition1 i * partition2 j)
  let congestion := if 0 < cut_size then traffic_across_cut / cut_size else 0
  let partitioned_adj := fun i j => adjacency_matrix i j - cut_matrix i j
  let masked1 := fun i j => if 0 < partition1 i * partition1 j then partitioned_adj i j else 0
  let masked2 := fun i j => if 0 < partition2 i * partition2 j then partitioned_adj i j else 0
  let connected1 := ∀ j ∈ Finset.range num_nodes,
    0 < partition1 j → 0 < ∑ i ∈ Finset.range num_nodes, masked1 i j
  let connected2 := ∀ j ∈ Finset.range num_nodes,
    0 < partition2 j → 0 < ∑ i ∈ Finset.range num_nodes, masked2 i j
  congestion * (if connected1 ∧ connected2 then 1 else 0)

/-- make_complete_subgraph from cutsets_bounds.py: nodes touched by the path
adjacency (positive row-plus-column sum) are active, and the result keeps
every full-graph edge between two active nodes. -/
def make_complete_subgraph (path_adj_matrix adj_matrix : ℕ → ℕ → ℚ) (num_nodes : ℕ) :
    ℕ → ℕ → ℚ :=
  let active := fun j => 0 < (∑ i ∈ Finset.range num_nodes, path_adj_matrix i j) +
    (∑ i ∈ Finset.range num_nodes, path_adj_matrix j i)
  fun i j => if active i ∧ active j then adj_matrix i j else 0

/-- find_cutset_adj from cutsets_bounds.py: nodes with any connection in the
subgraph matrix are inside; the cutset (a boolean matrix) holds the
full-graph edges with exactly one endpoint inside. -/
def find_cutset_adj (subgraph_matrix full_matrix : ℕ → ℕ → ℚ) (num_nodes : ℕ) :
    ℕ → ℕ → Bool :=
  let in_subgraph := fun j =>
    decide (0 < (∑ i ∈ Finset.range num_nodes, subgraph_matrix i j) +
      (∑ i ∈ Finset.range num_nodes, subgraph_matrix j i))
  fun i j => decide (full_matrix i j ≠ 0) &&
    ((in_subgraph i && !in_subgraph j) || (!in_subgraph i && in_subgraph j))

/-- Remaining graph built inside get_cutset_from_path: the full adjacency
with the computed cutset edges zeroed out,
adjacency * (1 - cutset_adjacency). -/
def remaining_graph_of (path_array : List ℚ) (adjacency : ℕ → ℕ → ℚ)
    (source_nodes dest_nodes : List ℕ) (num_nodes : ℕ) : ℕ → ℕ → ℚ :=
  let path_adjacency := edges_to_adjacency path_array source_nodes dest_nodes num_nodes
  let subgraph_adjacency := make_complete_subgraph path_adjacency adjacency num_nodes
  let cutset_adjacency := find_cutset_adj subgraph_adjacency adjacency num_nodes
  fun i j => adjacency i j * (1 - if cutset_adjacency i j then (1 : ℚ) else 0)

/-- One round of the reachability propagation in get_cutset_from_path:
vector-matrix product against the remaining graph, any positive entry
thresholded to 1, the previous reachability kept elsewhere. -/
def update_reachable (remaining : ℕ → ℕ → ℚ) (num_nodes : ℕ) (r : ℕ → ℚ) : ℕ → ℚ :=
  fun j => if 0 < ∑ i ∈ Finset.range num_nodes, r i * remaining i j then 1 else r j

/-- get_cutset_from_path from cutsets_bounds.py: builds the path adjacency,
completes it over active nodes, removes the resulting cutset from the full
adjacency, and propagates reachability from node 0 for num_nodes - 1 rounds;
partition1 is the reachability vector, partition2 its complement. -/
def get_cutset_from_path (path_array : List ℚ) (adjacency : ℕ → ℕ → ℚ)
    (source_nodes dest_nodes : List ℕ) (num_nodes : ℕ) : (ℕ → ℚ) × (ℕ → ℚ) :=
  let remaining := remaining_graph_of path_array adjacency source_nodes dest_nodes num_nodes
  let reachable0 : ℕ → ℚ := fun i => if i = 0 then 1 else 0
  let partition1 := (update_reachable remaining num_nodes)^[num_nodes - 1] reachable0
  (partition1, fun i => 1 - partition1 i)

/-! ## Definitions: specification-level notions for the estimator claims -/

/-- Walks of length at most r from node 0 in the graph g with in-range
sources: the propagation front after r rounds. -/
def walk_le (g : ℕ → ℕ → ℚ) (n : ℕ) : ℕ → ℕ → Prop
  | 0, j => j = 0
  | r + 1, j => walk_le g n r j ∨ ∃ i, i < n ∧ walk_le g n r i ∧ 0 < g i j

/-- Decidability of walk_le, by recursion on the round count. -/
def walk_le_dec (g : ℕ → ℕ → ℚ) (n : ℕ) : (r j : ℕ) → Decidable (walk_le g n r j)
  | 0, j => decidable_of_iff (j = 0) (by simp [walk_le])
  | r + 1, j =>
    haveI : ∀ j', Decidable (walk_le g n r j') := walk_le_dec g n r
    decidable_of_iff
      (walk_le g n r j ∨ ∃ i ∈ Finset.range n, walk_le g n r i ∧ 0 < g i j)
      (by simp [walk_le, Finset.mem_range])

instance (g : ℕ → ℕ → ℚ) (n r j : ℕ) : Decidable (walk_le g n r j) := walk_le_dec g n r j

/-- Reachability from node 0 in the graph g: reflexive-transitive closure of
the positive-entry step relation with in-range sources. -/
def reaches (g : ℕ → ℕ → ℚ) (n : ℕ) (j : ℕ) : Prop :=
  Relation.ReflTransGen (fun a b => a < n ∧ 0 < g a b) 0 j

/-- Membership of the undirected edge {u, v} in the topology's edge list. -/
def edge_mem (source_nodes dest_nodes : List ℕ) (u v : ℕ) : Prop :=
  (u, v) ∈ source_nodes.zip dest_nodes ∨ (v, u) ∈ source_nodes.zip dest_nodes

instance (source_nodes dest_nodes : List ℕ) (u v : ℕ) :
    Decidable (edge_mem source_nodes dest_nodes u v) := by
  unfold edge_mem
  infer_instance

/-- The edge (u, v) has exactly one endpoint in partition1 (mask value 1). -/
def spec_cut_edge (mask : ℕ → ℚ) (u v : ℕ) : Prop :=
  (mask u = 1 ∧ mask v ≠ 1) ∨ (mask u ≠ 1 ∧ mask v = 1)

instance (mask : ℕ → ℚ) (u v : ℕ) : Decidable (spec_cut_edge mask u v) := by
  unfold spec_cut_edge
  infer_instance

/-- Number of edges with exactly one endpoint in partition1. -/
def cut_edge_count (mask : ℕ → ℚ) (source_nodes dest_nodes : List ℕ) : ℕ :=
  ((source_nodes.zip dest_nodes).filter (fun e => decide (spec_cut_edge mask e.1 e.2))).length

/-- Sum over ordered pairs (i, j) of traffic[i][j] * partition1[i] *
partition2[j]. -/
def traffic_crossing (mask : ℕ → ℚ) (traffic_matrix : ℕ → ℕ → ℚ) (num_nodes : ℕ) : ℚ :=
  ∑ i ∈ Finset.range num_nodes, ∑ j ∈ Finset.range num_nodes,
    traffic_matrix i j * mask i * (1 - mask j)

/-- Connectivity gate of the claim for the partition whose mask value is
`side`: every node of that side keeps at least one same-side neighbor after
the cutset edges are removed from the adjacency. -/
def spec_gate (mask : ℕ → ℚ) (side : ℚ) (source_nodes dest_nodes : List ℕ) (n : ℕ) : Prop :=
  ∀ u, u < n → mask u = side → ∃ v, v < n ∧ mask v = side ∧
    edge_mem source_nodes dest_nodes u v ∧ ¬ spec_cut_edge mask u v

instance (mask : ℕ → ℚ) (side : ℚ) (source_nodes dest_nodes : List ℕ) (n : ℕ) :
    Decidable (spec_gate mask side source_nodes dest_nodes n) :=
  decidable_of_iff
    (∀ u ∈ Finset.range n, mask u = side → ∃ v ∈ Finset.range n, mask v = side ∧
      edge_mem source_nodes dest_nodes u v ∧ ¬ spec_cut_edge mask u v)
    (by simp [spec_gate, Finset.mem_range])

/-- Congestion exactly as the claim states it: traffic crossing divided by
the number of cutset edges when the cutset is nonempty and both connectivity
gates pass, 0 otherwise. -/
def claim_congestion (mask : ℕ → ℚ) (traffic_matrix : ℕ → ℕ → ℚ)
    (source_nodes dest_nodes : List ℕ) (n : ℕ) : ℚ :=
  if 0 < cut_edge_count mask source_nodes dest_nodes ∧
      spec_gate mask 1 source_nodes dest_nodes n ∧
      spec_gate mask 0 source_nodes dest_nodes n
  then traffic_crossing mask traffic_matrix n /
    (cut_edge_count mask source_nodes dest_nodes : ℚ)
  else 0

/-- The k-th edge of the list covers the matrix position (i, j) in one of
its two orientations. -/
def edge_hit (source_nodes dest_nodes : List ℕ) (k i j : ℕ) : Prop :=
  (source_nodes.getD k 0 = i ∧ dest_nodes.getD k 0 = j) ∨
  (source_nodes.getD k 0 = j ∧ dest_nodes.getD k 0 = i)

/-- Prefix of the edges_to_adjacency fold: scatter of the first m edges.
edges_to_adjacency vals src dst n is scatter_fold vals src dst vals.length. -/
def scatter_fold (vals : List ℚ) (source_nodes dest_nodes : List ℕ) (m : ℕ) : ℕ → ℕ → ℚ :=
  (List.range m).foldl
    (fun adj idx =>
      dyn_update
        (dyn_update adj (source_nodes.getD idx 0) (dest_nodes.getD idx 0) (vals.getD idx 0))
        (dest_nodes.getD idx 0) (source_nodes.getD idx 0) (vals.getD idx 0))
    (fun _ _ => 0)

/-! ## Definitions: concrete instances for witnesses and counterexamples -/

/-- Four-node ring (edges (0,1), (0,3), (1,2), (2,3), sorted as main_jax
sorts them) used for the C1 counterexample and witness. -/
def ring4_src : List ℕ := [0, 0, 1, 2]

/-- Destination endpoints of the four-node ring. -/
def ring4_dst : List ℕ := [1, 3, 2, 3]

/-- Adjacency matrix of the four-node ring. -/
def ring4_adj : ℕ → ℕ → ℚ := fun i j => if edge_mem ring4_src ring4_dst i j then 1 else 0

/-- All-ones off-diagonal traffic matrix on the four-node ring. -/
def ring4_traffic : ℕ → ℕ → ℚ := fun i j => if i < 4 ∧ j < 4 ∧ i ≠ j then 1 else 0

/-- Partition mask {0, 1} versus {2, 3} on the four-node ring. -/
def ring4_mask : ℕ → ℚ := fun i => if i < 2 then 1 else 0

/-- Triangle graph (edges (0,1), (0,2), (1,2)) used for the C3 witness. -/
def tri_src : List ℕ := [0, 0, 1]

/-- Destination endpoints of the triangle graph. -/
def tri_dst : List ℕ := [1, 2, 2]

/-- Adjacency matrix of the triangle graph. -/
def tri_adj : ℕ → ℕ → ℚ := fun i j => if edge_mem tri_src tri_dst i j then 1 else 0

/-- Path-link row selecting only the edge (0,1) of the triangle. -/
def tri_path : List ℚ := [1, 0, 0]

-- THEOREMS BELOW

/-! ## Theorems -/

/-- Helper for C6: one apply_gradients call with the all-zero ordinary
gradient tree, under a transform whose update of a zero gradient is a zero
update, increments step and leaves params unchanged. -/
theorem apply_gradients_zero_step {P S A : Type} [AddZeroClass P]
    (ts : TrainState P S A) (hzero : ∀ s q, (ts.tx.update 0 s q).1 = 0) :
    (ts.apply_gradients ⟨0, none⟩).step = ts.step + 1 ∧
    (ts.apply_gradients ⟨0, none⟩).params = ts.params ∧
    (ts.apply_gradients ⟨0, none⟩).tx = ts.tx := by
  refine ⟨rfl, ?_, rfl⟩
  show (⟨ts.params.base + (ts.tx.update 0 ts.opt_state ts.params.base).1, ts.params.owg⟩ :
    ParamsTree P) = ts.params
  rw [hzero, add_zero]

/-- C6: TrainState.create sets step to 0; every apply_gradients call
increments step by 1; and with an all-zero ordinary gradient tree and a
purely additive optimizer transform (zero gradient gives zero update), the
params are unchanged and after N calls step equals N. -/
theorem train_state_zero_grads {P S A : Type} [AddZeroClass P]
    (apply_fn : A) (params0 : P) (tx : GradientTransformation P S)
    (hzero : ∀ s q, (tx.update 0 s q).1 = 0) (N : Nat) :
    (TrainState.create apply_fn ⟨params0, none⟩ tx : TrainState P S A).step = 0 ∧
    (∀ (ts : TrainState P S A) (grads : ParamsTree P),
      (ts.apply_gradients grads).step = ts.step + 1) ∧
    ((TrainState.create apply_fn ⟨params0, none⟩ tx : TrainState P S A).apply_gradients_iter
        ⟨0, none⟩ N).step = N ∧
    ((TrainState.create apply_fn ⟨params0, none⟩ tx : TrainState P S A).apply_gradients_iter
        ⟨0, none⟩ N).params = ⟨params0, none⟩ := by
  have haux : ∀ k : Nat,
      ((TrainState.create apply_fn ⟨params0, none⟩ tx : TrainState P S A).apply_gradients_iter
          ⟨0, none⟩ k).step = k ∧
      ((TrainState.create apply_fn ⟨params0, none⟩ tx : TrainState P S A).apply_gradients_iter
          ⟨0, none⟩ k).params = ⟨params0, none⟩ ∧
      ((TrainState.create apply_fn ⟨params0, none⟩ tx : TrainState P S A).apply_gradients_iter
          ⟨0, none⟩ k).tx = tx := by
    intro k
    induction k with
    | zero => exact ⟨rfl, rfl, rfl⟩
    | succ k ih =>
      obtain ⟨h1, h2, h3⟩ := ih
      have hz : ∀ s q, (((TrainState.create apply_fn ⟨params0, none⟩ tx :
          TrainState P S A).apply_gradients_iter ⟨0, none⟩ k).tx.update 0 s q).1 = 0 := by
        rw [h3]; exact hzero
      obtain ⟨g1, g2, g3⟩ := apply_gradients_zero_step _ hz
      refine ⟨?_, ?_, ?_⟩
      · show ((TrainState.apply_gradients_iter _ _ k).apply_gradients _).step = k + 1
        rw [g1, h1]
      · show ((TrainState.apply_gradients_iter _ _ k).apply_gradients _).params = _
        rw [g2, h2]
      · show ((TrainState.apply_gradients_iter _ _ k).apply_gradients _).tx = tx
        rw [g3, h3]
  refine ⟨rfl, ?_, (haux N).1, (haux N).2.1⟩
  intro ts grads
  rcases grads with ⟨b, o⟩
  cases o <;> rfl

/-- Transform used in the C6 witness: the identity transform, which is
purely additive (its update is the incoming gradient itself). -/
def c6_tx : GradientTransformation ℚ ℚ := ⟨fun _ => 0, fun g s _ => (g, s)⟩

/-- Witness for C6 at a concrete instance: params 5, three zero-gradient
updates, ending at step 3 with params unchanged. -/
theorem train_state_zero_grads_witness :
    (∀ s q : ℚ, (c6_tx.update 0 s q).1 = 0) ∧
    ((TrainState.create () (⟨5, none⟩ : ParamsTree ℚ) c6_tx).apply_gradients_iter
        ⟨0, none⟩ 3).step = 3 ∧
    ((TrainState.create () (⟨5, none⟩ : ParamsTree ℚ) c6_tx).apply_gradients_iter
        ⟨0, none⟩ 3).params = ⟨5, none⟩ :=
  ⟨fun _ _ => rfl,
    (train_state_zero_grads () 5 c6_tx (fun _ _ => rfl) 3).2.2.1,
    (train_state_zero_grads () 5 c6_tx (fun _ _ => rfl) 3).2.2.2⟩

/-- C8: the forward output of scale_gradient equals its input array exactly,
for every scale. -/
theorem scale_gradient_forward_id (g : List ℚ) (scale : ℚ) :
    scale_gradient g scale = g := by
  unfold scale_gradient stop_gradient
  induction g with
  | nil => rfl
  | cons a t ih =>
    rw [List.map_cons, ih]
    congr 1
    ring

/-- C9: apply_gradients (without extra field overrides) preserves apply_fn
and tx; only step, params and opt_state are replaced. -/
theorem apply_gradients_frame {P S A : Type} [Add P]
    (ts : TrainState P S A) (grads : ParamsTree P) :
    (ts.apply_gradients grads).apply_fn = ts.apply_fn ∧
    (ts.apply_gradients grads).tx = ts.tx ∧
    (ts.apply_gradients grads).step = ts.step + 1 := by
  rcases grads with ⟨b, o⟩
  cases o <;> exact ⟨rfl, rfl, rfl⟩

/-- C10: with ENV_WARMUP_STEPS = 0 the warmup closure performs no
environment steps and returns its input state and observation unchanged,
for every warmup-step body. -/
theorem warmup_zero_steps_id {R S P T O : Type}
    (warmup_step : Nat → R × S × P × T × O → R × S × P × T × O)
    (rng : R) (state : S) (params : P) (train_state : T) (last_obs : O) :
    warmup_fn 0 warmup_step rng state params train_state last_obs = (state, last_obs) := rfl

/-- C7: define_env fails with a configuration error exactly when the
lower-cased env_type is neither "vone" nor one of the RSA-family variants,
and for every recognized env_type it returns the statistics-wrapped
environment with its parameters. -/
theorem define_env_error_iff (env_type : String) :
    ((∃ msg, define_env env_type = Except.error msg) ↔
      (str_lower env_type ≠ "vone".data ∧
        str_lower env_type ∉ rsa_family_types.map String.data)) ∧
    ((str_lower env_type = "vone".data ∨
        str_lower env_type ∈ rsa_family_types.map String.data) →
      ∃ ep, define_env env_type = Except.ok ep ∧ ep.1.log_wrapped = true) := by
  unfold define_env
  by_cases h1 : str_lower env_type = "vone".data
  · simp [h1, LogWrapper]
  · by_cases h2 : str_lower env_type ∈ rsa_family_types.map String.data
    · simp [h1, h2, LogWrapper]
    · simp [h1, h2]

/-- C5 (code bug): in the non-VONE ACTION_MASKING branch with
config.deterministic set, at logits [0, 10] and slot mask [true, false] the
code returns the unmasked mode 1 (an action the mask marks invalid), while
the masked distribution's mode — what the claim states — is 0. -/
theorem select_action_det_unmasked_mode_bug :
    select_action_masked_det [0, 10] [true, false] = 1 ∧
    claim_masked_mode [0, 10] [true, false] = 0 ∧
    select_action_masked_det [0, 10] [true, false] ≠
      claim_masked_mode [0, 10] [true, false] := by
  refine ⟨by decide, by decide, by decide⟩

/-- C4: for identical recomputed cutset-edge rows the post-processing
retains exactly the first occurrence, carrying its own congestion and
partition values, and the final top-k is selected among the deduplicated
records. -/
theorem dedup_keeps_first (congs : List ℚ) (p1s p2s rows : List (List ℚ)) :
    (∀ i, i ∈ kept_indices rows ↔
      (i < rows.length ∧ ∀ j, j < i → rows.getD j [] ≠ rows.getD i [])) ∧
    (∀ i j, i < j → j < rows.length → rows.getD i [] = rows.getD j [] →
      j ∉ kept_indices rows) ∧
    (∀ i, i < rows.length → (∀ j, j < i → rows.getD j [] ≠ rows.getD i []) →
      i ∈ kept_indices rows ∧
      (congs.getD i 0, p1s.getD i [], p2s.getD i [], rows.getD i []) ∈
        dedup_records congs p1s p2s rows) ∧
    (∀ top_k e, e ∈ top_k_select top_k (dedup_records congs p1s p2s rows) →
      e ∈ dedup_records congs p1s p2s rows) := by
  have hmem : ∀ i, i ∈ kept_indices rows ↔
      (i < rows.length ∧ ∀ j, j < i → rows.getD j [] ≠ rows.getD i []) := by
    intro i
    simp [kept_indices, List.mem_filter, List.mem_range]
  refine ⟨hmem, ?_, ?_, ?_⟩
  · intro i j hij hj heq hkept
    exact (((hmem j).mp hkept).2 i hij) heq
  · intro i hi hfirst
    have hk : i ∈ kept_indices rows := (hmem i).mpr ⟨hi, hfirst⟩
    exact ⟨hk, List.mem_map.mpr ⟨i, hk, rfl⟩⟩
  · intro top_k e he
    have hsorted : e ∈ (dedup_records congs p1s p2s rows).insertionSort
        (fun a b => a.1 ≤ b.1) := List.mem_of_mem_drop he
    exact ((dedup_records congs p1s p2s rows).perm_insertionSort
      (fun a b => a.1 ≤ b.1)).mem_iff.mp hsorted

/-- Witness for C4 at a concrete instance: rows 0 and 2 are identical, and
index 2 (the later duplicate) is not retained while index 0 is. -/
theorem dedup_keeps_first_witness :
    ((0 : Nat) < 2 ∧ 2 < 3 ∧
      ([[(1 : ℚ), 0], [0, 1], [1, 0]].getD 0 [] = [[(1 : ℚ), 0], [0, 1], [1, 0]].getD 2 [])) ∧
    2 ∉ kept_indices [[(1 : ℚ), 0], [0, 1], [1, 0]] :=
  ⟨⟨by decide, by decide, by decide⟩,
    (dedup_keeps_first [] [] [] [[(1 : ℚ), 0], [0, 1], [1, 0]]).2.1 0 2
      (by decide) (by decide) (by decide)⟩

/-- Helper for C2: XOR acts digit-wise on a doubled value plus a final bit. -/
theorem two_mul_add_xor (x y b1 b2 : Nat) (hb1 : b1 < 2) (hb2 : b2 < 2) :
    (2 * x + b1) ^^^ (2 * y + b2) = 2 * (x ^^^ y) + (b1 ^^^ b2) := by
  have hb3 : b1 ^^^ b2 < 2 := by interval_cases b1 <;> interval_cases b2 <;> decide
  have d1 : (2 * x + b1) / 2 = x := by omega
  have d2 : (2 * y + b2) / 2 = y := by omega
  have d3 : (2 * (x ^^^ y) + (b1 ^^^ b2)) / 2 = x ^^^ y := by omega
  have m1 : (2 * x + b1) % 2 = b1 := by omega
  have m2 : (2 * y + b2) % 2 = b2 := by omega
  have m3 : (2 * (x ^^^ y) + (b1 ^^^ b2)) % 2 = b1 ^^^ b2 := by omega
  apply Nat.eq_of_testBit_eq
  intro i
  cases i with
  | zero =>
    rw [Nat.testBit_xor]
    simp only [Nat.testBit_zero, m1, m2, m3]
    interval_cases b1 <;> interval_cases b2 <;> decide
  | succ i =>
    rw [Nat.testBit_xor]
    simp only [Nat.testBit_add_one, d1, d2, d3]
    rw [Nat.testBit_xor]

/-- Helper for C2: Gray code of an even number. -/
theorem gray_two_mul (a : Nat) : gray (2 * a) = 2 * gray a + a % 2 := by
  have h1 : (2 * a) >>> 1 = a := by rw [Nat.shiftRight_one]; omega
  have h2 : 2 * a = 2 * a + 0 := by omega
  calc gray (2 * a) = (2 * a) ^^^ a := by rw [gray, h1]
    _ = (2 * a + 0) ^^^ (2 * (a / 2) + a % 2) := by rw [← h2]; congr 1; omega
    _ = 2 * (a ^^^ a / 2) + (0 ^^^ a % 2) :=
        two_mul_add_xor _ _ _ _ (by omega) (by omega)
    _ = 2 * gray a + a % 2 := by rw [Nat.zero_xor, gray, Nat.shiftRight_one]

/-- Helper for C2: Gray code of an odd number. -/
theorem gray_two_mul_add_one (a : Nat) :
    gray (2 * a + 1) = 2 * gray a + (1 ^^^ a % 2) := by
  have h1 : (2 * a + 1) >>> 1 = a := by rw [Nat.shiftRight_one]; omega
  calc gray (2 * a + 1) = (2 * a + 1) ^^^ a := by rw [gray, h1]
    _ = (2 * a + 1) ^^^ (2 * (a / 2) + a % 2) := by congr 1; omega
    _ = 2 * (a ^^^ a / 2) + (1 ^^^ a % 2) :=
        two_mul_add_xor _ _ _ _ (by omega) (by omega)
    _ = 2 * gray a + (1 ^^^ a % 2) := by rw [gray, Nat.shiftRight_one]

/-- Helper for C2: only 0 has Gray code 0. -/
theorem gray_eq_zero {b : Nat} (h : gray b = 0) : b = 0 := by
  have hb : b = b >>> 1 := Nat.xor_eq_zero.mp h
  rw [Nat.shiftRight_one] at hb
  omega

/-- Helper for C2: the Gray code map is injective. -/
theorem gray_inj : ∀ a b : Nat, gray a = gray b → a = b := by
  intro a
  induction a using Nat.strong_induction_on with
  | _ a ih =>
    intro b h
    rcases Nat.eq_zero_or_pos a with ha0 | hapos
    · subst ha0
      exact (gray_eq_zero h.symm).symm
    · have hhalf : ∀ k : Nat, gray k / 2 = gray (k / 2) := by
        intro k
        rcases Nat.even_or_odd k with ⟨c, hc⟩ | ⟨c, hc⟩
        · have hk : k = 2 * c := by omega
          have h3 : 2 * c / 2 = c := by omega
          rw [hk, gray_two_mul, h3]
          omega
        · have hk : k = 2 * c + 1 := by omega
          have hx : (1 ^^^ c % 2) < 2 := by
            rcases Nat.mod_two_eq_zero_or_one c with hc2 | hc2 <;> rw [hc2] <;> decide
          have h3 : (2 * c + 1) / 2 = c := by omega
          rw [hk, gray_two_mul_add_one, h3]
          omega
      have hmod : ∀ k : Nat, gray k % 2 = (k % 2) ^^^ (k / 2 % 2) := by
        intro k
        rcases Nat.even_or_odd k with ⟨c, hc⟩ | ⟨c, hc⟩
        · have hk : k = 2 * c := by omega
          have : c % 2 < 2 := by omega
          rw [hk, gray_two_mul]
          have h2 : (2 * c) % 2 = 0 := by omega
          have h3 : (2 * c) / 2 = c := by omega
          rw [h2, h3, Nat.zero_xor]
          omega
        · have hk : k = 2 * c + 1 := by omega
          have hx : (1 ^^^ c % 2) < 2 := by
            rcases Nat.mod_two_eq_zero_or_one c with hc2 | hc2 <;> rw [hc2] <;> decide
          rw [hk, gray_two_mul_add_one]
          have h2 : (2 * c + 1) % 2 = 1 := by omega
          have h3 : (2 * c + 1) / 2 = c := by omega
          rw [h2, h3]
          omega
      have hdiv : a / 2 = b / 2 := by
        apply ih (a / 2) (by omega)
        rw [← hhalf a, ← hhalf b, h]
      have hm : (a % 2) ^^^ (a / 2 % 2) = (b % 2) ^^^ (b / 2 % 2) := by
        rw [← hmod a, ← hmod b, h]
      rw [hdiv] at hm
      have ha2 := Nat.mod_two_eq_zero_or_one a
      have hb2 := Nat.mod_two_eq_zero_or_one b
      have hc2 := Nat.mod_two_eq_zero_or_one (b / 2)
      have hab : a % 2 = b % 2 := by
        rcases ha2 with h1 | h1 <;> rcases hb2 with h2 | h2 <;>
          rcases hc2 with h3 | h3 <;> rw [h1, h2, h3] at hm <;> simp_all
      omega

/-- Helper for C2: Gray codes of consecutive integers differ in exactly one
binary digit. -/
theorem gray_xor_succ : ∀ k : Nat, ∃ t, gray k ^^^ gray (k + 1) = 2 ^ t := by
  intro k
  induction k using Nat.strong_induction_on with
  | _ k ih =>
    rcases Nat.even_or_odd k with ⟨a, hk⟩ | ⟨a, hk⟩
    · have h2a : k = 2 * a := by omega
      refine ⟨0, ?_⟩
      rw [h2a, gray_two_mul, gray_two_mul_add_one]
      have hx : (1 ^^^ a % 2) < 2 := by
        rcases Nat.mod_two_eq_zero_or_one a with hc2 | hc2 <;> rw [hc2] <;> decide
      rw [two_mul_add_xor _ _ _ _ (by omega) hx, Nat.xor_self]
      rcases Nat.mod_two_eq_zero_or_one a with hc2 | hc2 <;> rw [hc2] <;> decide
    · have h2a : k = 2 * a + 1 := by omega
      obtain ⟨t, ht⟩ := ih a (by omega)
      refine ⟨t + 1, ?_⟩
      have h2a1 : 2 * a + 1 + 1 = 2 * (a + 1) := by omega
      rw [h2a, h2a1, gray_two_mul_add_one, gray_two_mul]
      have hx : (1 ^^^ a % 2) < 2 := by
        rcases Nat.mod_two_eq_zero_or_one a with hc2 | hc2 <;> rw [hc2] <;> decide
      rw [two_mul_add_xor _ _ _ _ hx (by omega), ht]
      have hz : ((1 ^^^ a % 2) ^^^ (a + 1) % 2) = 0 := by
        rcases Nat.mod_two_eq_zero_or_one a with hc2 | hc2 <;>
          · have : (a + 1) % 2 = 1 - a % 2 := by omega
            rw [this, hc2]
            decide
      rw [hz, Nat.add_zero, Nat.pow_succ]
      omega

/-- Helper for C2: Gray codes stay below the same power of two. -/
theorem gray_lt_two_pow {n k : Nat} (h : k < 2 ^ n) : gray k < 2 ^ n := by
  apply Nat.xor_lt_two_pow h
  calc k >>> 1 ≤ k := by rw [Nat.shiftRight_one]; omega
    _ < 2 ^ n := h

/-- Helper for C2: entry b of mask row i equals binary digit n-1-b of
gray(start + i). -/
theorem mask_entry_eq (n bs start i b : Nat) (hi : i < bs) (hb : b < n) :
    ((generate_gray_code_masks n bs start).getD i []).getD b 0
      = if (gray (start + i)).testBit (n - 1 - b) then 1 else 0 := by
  have hrow : (generate_gray_code_masks n bs start).getD i []
      = (List.range n).map (fun c => gray (i + start) / 2 ^ (n - 1 - c) % 2) := by
    simp [generate_gray_code_masks, List.getElem?_range hi]
  rw [hrow]
  have hentry : ((List.range n).map (fun c => gray (i + start) / 2 ^ (n - 1 - c) % 2)).getD b 0
      = gray (i + start) / 2 ^ (n - 1 - b) % 2 := by
    simp [List.getElem?_range hb]
  rw [hentry, Nat.add_comm start i, Nat.testBit_to_div_mod]
  rcases Nat.mod_two_eq_zero_or_one (gray (i + start) / 2 ^ (n - 1 - b)) with h | h <;>
    rw [h] <;> simp

/-- Helper for C2: rows generated for distinct integers below 2^n differ. -/
theorem mask_rows_distinct (n k1 k2 : Nat) (h1 : k1 < 2 ^ n) (h2 : k2 < 2 ^ n)
    (hne : k1 ≠ k2) :
    (generate_gray_code_masks n (2 ^ n) 0).getD k1 [] ≠
      (generate_gray_code_masks n (2 ^ n) 0).getD k2 [] := by
  intro heq
  apply hne
  apply gray_inj
  have hg1 : gray k1 < 2 ^ n := gray_lt_two_pow h1
  have hg2 : gray k2 < 2 ^ n := gray_lt_two_pow h2
  apply Nat.eq_of_testBit_eq
  intro t
  by_cases ht : t < n
  · have hb : n - 1 - t < n := by omega
    have e1 := mask_entry_eq n (2 ^ n) 0 k1 (n - 1 - t) h1 hb
    have e2 := mask_entry_eq n (2 ^ n) 0 k2 (n - 1 - t) h2 hb
    rw [heq, e2] at e1
    have hsub : n - 1 - (n - 1 - t) = t := by omega
    rw [hsub] at e1 e2
    simp only [Nat.zero_add] at e1
    by_cases c1 : (gray k1).testBit t <;> by_cases c2 : (gray k2).testBit t <;>
      simp [c1, c2] at e1 ⊢
  · rw [Nat.testBit_eq_false_of_lt
        (lt_of_lt_of_le hg1 (Nat.pow_le_pow_right (by omega) (by omega))),
      Nat.testBit_eq_false_of_lt
        (lt_of_lt_of_le hg2 (Nat.pow_le_pow_right (by omega) (by omega)))]

/-- Helper for C2: rows of consecutive integers differ in exactly one of the
n positions. -/
theorem mask_consecutive_one_bit (n k : Nat) (h : k + 1 < 2 ^ n) :
    ((Finset.range n).filter (fun b =>
      ((generate_gray_code_masks n (2 ^ n) 0).getD k []).getD b 0 ≠
      ((generate_gray_code_masks n (2 ^ n) 0).getD (k + 1) []).getD b 0)).card = 1 := by
  obtain ⟨t, ht⟩ := gray_xor_succ k
  have hk : k < 2 ^ n := by omega
  have hxlt : gray k ^^^ gray (k + 1) < 2 ^ n :=
    Nat.xor_lt_two_pow (gray_lt_two_pow hk) (gray_lt_two_pow h)
  have htn : t < n := by
    rw [ht] at hxlt
    exact (Nat.pow_lt_pow_iff_right (by omega)).mp hxlt
  have hset : (Finset.range n).filter (fun b =>
      ((generate_gray_code_masks n (2 ^ n) 0).getD k []).getD b 0 ≠
      ((generate_gray_code_masks n (2 ^ n) 0).getD (k + 1) []).getD b 0) = {n - 1 - t} := by
    ext b
    simp only [Finset.mem_filter, Finset.mem_range, Finset.mem_singleton]
    constructor
    · rintro ⟨hb, hne⟩
      rw [mask_entry_eq n (2 ^ n) 0 k b hk hb,
        mask_entry_eq n (2 ^ n) 0 (k + 1) b h hb] at hne
      simp only [Nat.zero_add] at hne
      have hbits : (gray k).testBit (n - 1 - b) ≠ (gray (k + 1)).testBit (n - 1 - b) := by
        intro hcontra
        rw [hcontra] at hne
        exact hne rfl
      have hxorbit : (gray k ^^^ gray (k + 1)).testBit (n - 1 - b) = true := by
        rw [Nat.testBit_xor]
        cases c1 : (gray k).testBit (n - 1 - b) <;>
          cases c2 : (gray (k + 1)).testBit (n - 1 - b) <;> simp_all
      rw [ht, Nat.testBit_two_pow] at hxorbit
      have := of_decide_eq_true hxorbit
      omega
    · intro hbeq
      refine ⟨by omega, ?_⟩
      rw [hbeq, mask_entry_eq n (2 ^ n) 0 k _ hk (by omega),
        mask_entry_eq n (2 ^ n) 0 (k + 1) _ h (by omega)]
      simp only [Nat.zero_add]
      have hsub : n - 1 - (n - 1 - t) = t := by omega
      rw [hsub]
      have hxorbit : (gray k ^^^ gray (k + 1)).testBit t = true := by
        rw [ht, Nat.testBit_two_pow]
        simp
      rw [Nat.testBit_xor] at hxorbit
      cases c1 : (gray k).testBit t <;> cases c2 : (gray (k + 1)).testBit t <;> simp_all
  rw [hset]
  exact Finset.card_singleton _

/-- C2: generate_gray_code_masks row i holds the n-bit MSB-first binary
digits of gray(start + i); rows for distinct integers below 2^n are
distinct; and rows of consecutive integers differ in exactly one bit. -/
theorem gray_code_masks_correct :
    (∀ n bs start i b, i < bs → b < n →
      ((generate_gray_code_masks n bs start).getD i []).getD b 0
        = if (gray (start + i)).testBit (n - 1 - b) then 1 else 0) ∧
    (∀ n k1 k2, k1 < 2 ^ n → k2 < 2 ^ n → k1 ≠ k2 →
      (generate_gray_code_masks n (2 ^ n) 0).getD k1 [] ≠
        (generate_gray_code_masks n (2 ^ n) 0).getD k2 []) ∧
    (∀ n k, k + 1 < 2 ^ n →
      ((Finset.range n).filter (fun b =>
        ((generate_gray_code_masks n (2 ^ n) 0).getD k []).getD b 0 ≠
        ((generate_gray_code_masks n (2 ^ n) 0).getD (k + 1) []).getD b 0)).card = 1) :=
  ⟨fun n bs start i b hi hb => mask_entry_eq n bs start i b hi hb,
    fun n k1 k2 h1 h2 hne => mask_rows_distinct n k1 k2 h1 h2 hne,
    fun n k h => mask_consecutive_one_bit n k h⟩

/-- Witness for C2 at n = 3: the masks of k = 2 and k = 3 differ in exactly
one bit, and the masks of k = 2 and k = 5 differ. -/
theorem gray_code_masks_correct_witness :
    ((2 : Nat) + 1 < 2 ^ 3 ∧ (2 : Nat) < 2 ^ 3 ∧ (5 : Nat) < 2 ^ 3 ∧ (2 : Nat) ≠ 5) ∧
    ((Finset.range 3).filter (fun b =>
      ((generate_gray_code_masks 3 (2 ^ 3) 0).getD 2 []).getD b 0 ≠
      ((generate_gray_code_masks 3 (2 ^ 3) 0).getD 3 []).getD b 0)).card = 1 ∧
    (generate_gray_code_masks 3 (2 ^ 3) 0).getD 2 [] ≠
      (generate_gray_code_masks 3 (2 ^ 3) 0).getD 5 [] :=
  ⟨⟨by decide, by decide, by decide, by decide⟩,
    gray_code_masks_correct.2.2 3 2 (by decide),
    gray_code_masks_correct.2.1 3 2 5 (by decide) (by decide) (by decide)⟩

/-- Helper: a sum of nonnegative rationals is positive exactly when one
term is. -/
theorem sum_pos_iff_exists {s : Finset ℕ} {f : ℕ → ℚ} (h : ∀ i ∈ s, 0 ≤ f i) :
    (0 < ∑ i ∈ s, f i) ↔ ∃ i ∈ s, 0 < f i := by
  constructor
  · intro hpos
    by_contra hno
    push_neg at hno
    have hz : ∑ i ∈ s, f i = 0 :=
      (Finset.sum_eq_zero_iff_of_nonneg h).mpr
        (fun i hi => le_antisymm (hno i hi) (h i hi))
    rw [hz] at hpos
    exact lt_irrefl 0 hpos
  · rintro ⟨i, hi, hfi⟩
    exact Finset.sum_pos' h ⟨i, hi, hfi⟩

/-- Helper for C1: edges_to_adjacency is the full scatter fold. -/
theorem edges_to_adjacency_eq_scatter (vals : List ℚ) (src dst : List ℕ) (n : ℕ) :
    edges_to_adjacency vals src dst n = scatter_fold vals src dst vals.length := rfl

/-- Helper for C1: one more scatter step overwrites the two oriented
positions of edge m. -/
theorem scatter_fold_succ (vals : List ℚ) (src dst : List ℕ) (m : ℕ) :
    scatter_fold vals src dst (m + 1)
      = dyn_update
          (dyn_update (scatter_fold vals src dst m) (src.getD m 0) (dst.getD m 0)
            (vals.getD m 0))
          (dst.getD m 0) (src.getD m 0) (vals.getD m 0) := by
  unfold scatter_fold
  rw [List.range_succ, List.foldl_append]
  rfl

/-- Helper for C1: a position hit by none of the first m edges stays 0. -/
theorem scatter_fold_not_hit (vals : List ℚ) (src dst : List ℕ) :
    ∀ m i j, (∀ k, k < m → ¬ edge_hit src dst k i j) →
      scatter_fold vals src dst m i j = 0 := by
  intro m
  induction m with
  | zero => intro i j _; rfl
  | succ m ih =>
    intro i j h
    have hm := h m (by omega)
    unfold edge_hit at hm
    rw [scatter_fold_succ]
    unfold dyn_update
    have hn1 : ¬ (i = dst.getD m 0 ∧ j = src.getD m 0) :=
      fun hc => hm (Or.inr ⟨hc.2.symm, hc.1.symm⟩)
    have hn2 : ¬ (i = src.getD m 0 ∧ j = dst.getD m 0) :=
      fun hc => hm (Or.inl ⟨hc.1.symm, hc.2.symm⟩)
    rw [if_neg hn1, if_neg hn2]
    exact ih i j (fun k hk => h k (by omega))

/-- Helper for C1: a position hit by exactly one of the first m edges holds
that edge's value. -/
theorem scatter_fold_hit (vals : List ℚ) (src dst : List ℕ) :
    ∀ m k i j, k < m → edge_hit src dst k i j →
      (∀ k', k' < m → k' ≠ k → ¬ edge_hit src dst k' i j) →
      scatter_fold vals src dst m i j = vals.getD k 0 := by
  intro m
  induction m with
  | zero => intro k i j hk; omega
  | succ m ih =>
    intro k i j hk hhit huniq
    rw [scatter_fold_succ]
    by_cases hkm : k = m
    · subst hkm
      unfold edge_hit at hhit
      unfold dyn_update
      rcases hhit with ⟨h1, h2⟩ | ⟨h1, h2⟩
      · by_cases houter : i = dst.getD k 0 ∧ j = src.getD k 0
        · rw [if_pos houter]
        · rw [if_neg houter, if_pos ⟨h1.symm, h2.symm⟩]
      · rw [if_pos ⟨h2.symm, h1.symm⟩]
    · have hnm : ¬ edge_hit src dst m i j :=
        huniq m (by omega) (fun heq => hkm (by omega))
      unfold edge_hit at hnm
      unfold dyn_update
      have hn1 : ¬ (i = dst.getD m 0 ∧ j = src.getD m 0) :=
        fun hc => hnm (Or.inr ⟨hc.2.symm, hc.1.symm⟩)
      have hn2 : ¬ (i = src.getD m 0 ∧ j = dst.getD m 0) :=
        fun hc => hnm (Or.inl ⟨hc.1.symm, hc.2.symm⟩)
      rw [if_neg hn1, if_neg hn2]
      exact ih k i j (by omega) hhit (fun k' h1 h2 => huniq k' (by omega) h2)

/-- Helper for C1: summing an n-by-n matrix after a single-entry overwrite. -/
theorem sum_dyn_update (A : ℕ → ℕ → ℚ) (s d : ℕ) (v : ℚ) (n : ℕ)
    (hs : s < n) (hd : d < n) :
    ∑ i ∈ Finset.range n, ∑ j ∈ Finset.range n, dyn_update A s d v i j
      = (∑ i ∈ Finset.range n, ∑ j ∈ Finset.range n, A i j) - A s d + v := by
  have hrow : ∀ i, i ≠ s →
      (∑ j ∈ Finset.range n, dyn_update A s d v i j) = ∑ j ∈ Finset.range n, A i j := by
    intro i hi
    refine Finset.sum_congr rfl (fun j _ => ?_)
    unfold dyn_update
    rw [if_neg (fun hc => hi hc.1)]
  have hsrow : (∑ j ∈ Finset.range n, dyn_update A s d v s j)
      = (∑ j ∈ Finset.range n, A s j) - A s d + v := by
    have h2 : dyn_update A s d v s d = v := by
      unfold dyn_update
      rw [if_pos ⟨rfl, rfl⟩]
    rw [← Finset.sum_erase_add _ _ (Finset.mem_range.mpr hd),
      ← Finset.sum_erase_add _ (fun j => A s j) (Finset.mem_range.mpr hd), h2,
      Finset.sum_congr rfl (fun j hj => by
        unfold dyn_update
        rw [if_neg (fun hc => Finset.ne_of_mem_erase hj hc.2)])]
    ring
  rw [← Finset.sum_erase_add _ _ (Finset.mem_range.mpr hs),
    ← Finset.sum_erase_add _ (fun i => ∑ j ∈ Finset.range n, A i j) (Finset.mem_range.mpr hs),
    hsrow,
    Finset.sum_congr rfl (fun i hi => hrow i (Finset.ne_of_mem_erase hi))]
  ring

/-- Helper for C1: edge membership is symmetric. -/
theorem edge_mem_symm (src dst : List ℕ) (u v : ℕ) :
    edge_mem src dst u v ↔ edge_mem src dst v u := by
  unfold edge_mem
  exact Or.comm

/-- Helper for C1: the crossing-edge predicate is symmetric. -/
theorem spec_cut_edge_symm (mask : ℕ → ℚ) (u v : ℕ) :
    spec_cut_edge mask u v ↔ spec_cut_edge mask v u := by
  unfold spec_cut_edge
  tauto

/-- Helper for C1: entry k of the zipped edge list. -/
theorem zip_getD_eq (src dst : List ℕ) (hlen : dst.length = src.length) {k : ℕ}
    (hk : k < src.length) :
    (src.zip dst).getD k (0, 0) = (src.getD k 0, dst.getD k 0) := by
  have hzlen : (src.zip dst).length = src.length := by
    rw [List.length_zip, hlen, Nat.min_self]
  rw [List.getD_eq_getElem _ _ (by omega), List.getElem_zip,
    List.getD_eq_getElem _ _ hk, List.getD_eq_getElem _ _ (by omega)]

/-- Helper for C1: entry k of the zipped edge list is a member of it. -/
theorem zip_getD_mem (src dst : List ℕ) (hlen : dst.length = src.length) {k : ℕ}
    (hk : k < src.length) :
    (src.getD k 0, dst.getD k 0) ∈ src.zip dst := by
  rw [← zip_getD_eq src dst hlen hk]
  have hzlen : k < (src.zip dst).length := by
    rw [List.length_zip, hlen, Nat.min_self]
    exact hk
  rw [List.getD_eq_getElem _ _ hzlen]
  exact List.getElem_mem _

/-- Helper for C1: a pair in the zipped edge list appears at some index. -/
theorem mem_zip_index (src dst : List ℕ) (hlen : dst.length = src.length) {i j : ℕ}
    (h : (i, j) ∈ src.zip dst) :
    ∃ t, t < src.length ∧ src.getD t 0 = i ∧ dst.getD t 0 = j := by
  obtain ⟨t, ht, hz⟩ := List.getElem_of_mem h
  have ht' : t < src.length := by
    rw [List.length_zip, hlen, Nat.min_self] at ht
    exact ht
  have heq := zip_getD_eq src dst hlen ht'
  rw [List.getD_eq_getElem _ _ ht, hz] at heq
  exact ⟨t, ht', (congrArg Prod.fst heq).symm, (congrArg Prod.snd heq).symm⟩

/-- Helper for C1: with pairwise-distinct undirected edges, at most one edge
covers a given matrix position. -/
theorem hit_unique (src dst : List ℕ)
    (hlen : dst.length = src.length)
    (hnodup : (src.zip dst).Pairwise (fun e f => e ≠ f ∧ e ≠ (f.2, f.1)))
    {k k' i j : ℕ} (hk : k < src.length) (hk' : k' < src.length)
    (h1 : edge_hit src dst k i j) (h2 : edge_hit src dst k' i j) : k = k' := by
  have hzlen : (src.zip dst).length = src.length := by
    rw [List.length_zip, hlen, Nat.min_self]
  have hzip : ∀ t, t < src.length → edge_hit src dst t i j →
      (src.zip dst).getD t (0, 0) = (i, j) ∨ (src.zip dst).getD t (0, 0) = (j, i) := by
    intro t ht hhit
    have heq := zip_getD_eq src dst hlen ht
    unfold edge_hit at hhit
    rcases hhit with ⟨ha, hb⟩ | ⟨ha, hb⟩
    · left
      rw [heq, ha, hb]
    · right
      rw [heq, ha, hb]
  have hpw := List.pairwise_iff_getElem.mp hnodup
  have hpw' : ∀ a b, a < src.length → b < src.length → a < b →
      (src.zip dst).getD a (0, 0) ≠ (src.zip dst).getD b (0, 0) ∧
      (src.zip dst).getD a (0, 0) ≠
        (((src.zip dst).getD b (0, 0)).2, ((src.zip dst).getD b (0, 0)).1) := by
    intro a b ha hb hab
    have ha' : a < (src.zip dst).length := by omega
    have hb' : b < (src.zip dst).length := by omega
    have hr := hpw a b ha' hb' hab
    rw [List.getD_eq_getElem _ _ ha', List.getD_eq_getElem _ _ hb']
    exact hr
  rcases Nat.lt_trichotomy k k' with hlt | heq | hlt
  · exfalso
    obtain ⟨hne', hnsw⟩ := hpw' k k' hk hk' hlt
    rcases hzip k hk h1 with ek | ek <;> rcases hzip k' hk' h2 with ek' | ek' <;>
      rw [ek, ek'] at hne' hnsw <;> simp_all
  · exact heq
  · exfalso
    obtain ⟨hne', hnsw⟩ := hpw' k' k hk' hk hlt
    rcases hzip k hk h1 with ek | ek <;> rcases hzip k' hk' h2 with ek' | ek' <;>
      rw [ek', ek] at hne' hnsw <;> simp_all

/-- Helper for C1: entry k of the cut-edge list computed by
find_cutset_edges is the crossing indicator of edge k. -/
theorem find_cutset_edges_getD
    (mask : ℕ → ℚ) (src dst : List ℕ) (n : ℕ)
    (hlen : dst.length = src.length)
    (hbound : ∀ e ∈ src.zip dst, e.1 < n ∧ e.2 < n)
    (hmin : min_node src dst = 0)
    (hmask : ∀ i, i < n → mask i = 0 ∨ mask i = 1)
    {k : ℕ} (hk : k < src.length) :
    (find_cutset_edges mask (fun a => 1 - mask a) src dst).getD k 0
      = if spec_cut_edge mask (src.getD k 0) (dst.getD k 0) then 1 else 0 := by
  have hzlen : (src.zip dst).length = src.length := by
    rw [List.length_zip, hlen, Nat.min_self]
  have hkz : k < (src.zip dst).length := by omega
  have hb := hbound _ (zip_getD_mem src dst hlen hk)
  simp only [find_cutset_edges, hmin, Nat.sub_zero]
  rw [List.getD_eq_getElem _ _ (by rw [List.length_map]; exact hkz), List.getElem_map,
    List.getElem_zip, ← List.getD_eq_getElem src 0 hk,
    ← List.getD_eq_getElem dst 0 (by omega : k < dst.length)]
  have hcond : ((mask (src.getD k 0) ≠ 0 ∧ 1 - mask (dst.getD k 0) ≠ 0) ∨
      (mask (dst.getD k 0) ≠ 0 ∧ 1 - mask (src.getD k 0) ≠ 0)) ↔
      spec_cut_edge mask (src.getD k 0) (dst.getD k 0) := by
    unfold spec_cut_edge
    rcases hmask _ hb.1 with hu | hu <;> rcases hmask _ hb.2 with hv | hv <;>
      rw [hu, hv] <;> norm_num
  rw [if_congr hcond rfl rfl]

/-- Helper for C1: the cut matrix entry at (i, j) is 1 exactly on crossing
edges of the topology, in both orientations. -/
theorem cut_matrix_entry
    (mask : ℕ → ℚ) (src dst : List ℕ) (n : ℕ)
    (hlen : dst.length = src.length)
    (hbound : ∀ e ∈ src.zip dst, e.1 < n ∧ e.2 < n)
    (hnodup : (src.zip dst).Pairwise (fun e f => e ≠ f ∧ e ≠ (f.2, f.1)))
    (hmin : min_node src dst = 0)
    (hmask : ∀ i, i < n → mask i = 0 ∨ mask i = 1)
    (i j : ℕ) :
    edges_to_adjacency (find_cutset_edges mask (fun a => 1 - mask a) src dst) src dst n i j
      = if edge_mem src dst i j ∧ spec_cut_edge mask i j then 1 else 0 := by
  have hvlen : (find_cutset_edges mask (fun a => 1 - mask a) src dst).length = src.length := by
    simp [find_cutset_edges, List.length_zip, hlen]
  rw [edges_to_adjacency_eq_scatter, hvlen]
  by_cases hem : edge_mem src dst i j
  · have hex : ∃ t, t < src.length ∧ edge_hit src dst t i j := by
      unfold edge_mem at hem
      rcases hem with hm | hm
      · obtain ⟨t, ht, ha, hb⟩ := mem_zip_index src dst hlen hm
        exact ⟨t, ht, Or.inl ⟨ha, hb⟩⟩
      · obtain ⟨t, ht, ha, hb⟩ := mem_zip_index src dst hlen hm
        exact ⟨t, ht, Or.inr ⟨ha, hb⟩⟩
    obtain ⟨t, ht, hhit⟩ := hex
    have huniq : ∀ k', k' < src.length → k' ≠ t → ¬ edge_hit src dst k' i j :=
      fun k' hk' hne' hh => hne' (hit_unique src dst hlen hnodup hk' ht hh hhit)
    rw [scatter_fold_hit _ src dst src.length t i j ht hhit huniq,
      find_cutset_edges_getD mask src dst n hlen hbound hmin hmask ht]
    have hhit' := hhit
    unfold edge_hit at hhit'
    rcases hhit' with ⟨h1, h2⟩ | ⟨h1, h2⟩
    · rw [h1, h2]
      by_cases hc : spec_cut_edge mask i j <;> simp [hc, hem]
    · rw [h1, h2, if_congr (spec_cut_edge_symm mask j i) rfl rfl]
      by_cases hc : spec_cut_edge mask i j <;> simp [hc, hem]
  · have hnone : ∀ k, k < src.length → ¬ edge_hit src dst k i j := by
      intro k hk hh
      have hmem := zip_getD_mem src dst hlen hk
      unfold edge_hit at hh
      unfold edge_mem at hem
      rcases hh with ⟨h1, h2⟩ | ⟨h1, h2⟩
      · exact hem (Or.inl (by rw [← h1, ← h2]; exact hmem))
      · exact hem (Or.inr (by rw [← h1, ← h2]; exact hmem))
    rw [scatter_fold_not_hit _ src dst src.length i j hnone,
      if_neg (fun hc => hem hc.1)]

/-- Helper for C1: matrix sum of the scatter of the first m edges is twice
the sum of their values. -/
theorem scatter_fold_sum
    (vals : List ℚ) (src dst : List ℕ) (n : ℕ)
    (hlen : dst.length = src.length)
    (hbound : ∀ e ∈ src.zip dst, e.1 < n ∧ e.2 < n)
    (hne : ∀ e ∈ src.zip dst, e.1 ≠ e.2)
    (hnodup : (src.zip dst).Pairwise (fun e f => e ≠ f ∧ e ≠ (f.2, f.1))) :
    ∀ m, m ≤ src.length →
      (∑ i ∈ Finset.range n, ∑ j ∈ Finset.range n, scatter_fold vals src dst m i j)
        = 2 * ∑ k ∈ Finset.range m, vals.getD k 0 := by
  intro m
  induction m with
  | zero =>
    intro _
    simp [scatter_fold]
  | succ m ih =>
    intro hm1
    have hmlen : m < src.length := by omega
    have hmem := zip_getD_mem src dst hlen hmlen
    have hb := hbound _ hmem
    have hnezip : src.getD m 0 ≠ dst.getD m 0 := hne _ hmem
    have hfresh1 : scatter_fold vals src dst m (src.getD m 0) (dst.getD m 0) = 0 := by
      apply scatter_fold_not_hit
      intro k hk hh
      have := hit_unique src dst hlen hnodup (by omega : k < src.length) hmlen hh
        (Or.inl ⟨rfl, rfl⟩)
      omega
    have hfresh2 : scatter_fold vals src dst m (dst.getD m 0) (src.getD m 0) = 0 := by
      apply scatter_fold_not_hit
      intro k hk hh
      have := hit_unique src dst hlen hnodup (by omega : k < src.length) hmlen hh
        (Or.inr ⟨rfl, rfl⟩)
      omega
    have hB : dyn_update (scatter_fold vals src dst m) (src.getD m 0) (dst.getD m 0)
        (vals.getD m 0) (dst.getD m 0) (src.getD m 0)
        = scatter_fold vals src dst m (dst.getD m 0) (src.getD m 0) := by
      unfold dyn_update
      rw [if_neg]
      rintro ⟨hx, -⟩
      exact hnezip hx.symm
    rw [scatter_fold_succ, sum_dyn_update _ (dst.getD m 0) (src.getD m 0) _ n hb.2 hb.1,
      sum_dyn_update _ (src.getD m 0) (dst.getD m 0) _ n hb.1 hb.2, hB, hfresh2, hfresh1,
      ih (by omega), Finset.sum_range_succ]
    ring

/-- Helper for C1: a sum of 0/1 indicators over index positions counts the
filtered entries. -/
theorem sum_indicator_filter (L : List (ℕ × ℕ)) (p : ℕ × ℕ → Prop) [DecidablePred p] :
    (∑ k ∈ Finset.range L.length, if p (L.getD k (0, 0)) then (1 : ℚ) else 0)
      = ((L.filter (fun e => decide (p e))).length : ℚ) := by
  induction L with
  | nil => simp
  | cons a t ih =>
    rw [List.length_cons, Finset.sum_range_succ']
    have h0 : (a :: t).getD 0 (0, 0) = a := rfl
    have hsucc : ∀ i : ℕ, (a :: t).getD (i + 1) (0, 0) = t.getD i (0, 0) := fun i => rfl
    simp only [hsucc, h0]
    rw [ih]
    by_cases hp : p a
    · rw [List.filter_cons_of_pos (by simpa using hp), if_pos hp, List.length_cons]
      push_cast
      ring
    · rw [List.filter_cons_of_neg (by simpa using hp), if_neg hp]
      ring

/-- Helper for C1: the code's cut_size (sum of the scattered cut matrix) is
twice the number of crossing edges. -/
theorem cut_size_eq
    (mask : ℕ → ℚ) (src dst : List ℕ) (n : ℕ)
    (hlen : dst.length = src.length)
    (hbound : ∀ e ∈ src.zip dst, e.1 < n ∧ e.2 < n)
    (hne : ∀ e ∈ src.zip dst, e.1 ≠ e.2)
    (hnodup : (src.zip dst).Pairwise (fun e f => e ≠ f ∧ e ≠ (f.2, f.1)))
    (hmin : min_node src dst = 0)
    (hmask : ∀ i, i < n → mask i = 0 ∨ mask i = 1) :
    (∑ i ∈ Finset.range n, ∑ j ∈ Finset.range n,
      edges_to_adjacency (find_cutset_edges mask (fun a => 1 - mask a) src dst) src dst n i j)
      = 2 * (cut_edge_count mask src dst : ℚ) := by
  have hvlen : (find_cutset_edges mask (fun a => 1 - mask a) src dst).length = src.length := by
    simp [find_cutset_edges, List.length_zip, hlen]
  have hzlen : (src.zip dst).length = src.length := by
    rw [List.length_zip, hlen, Nat.min_self]
  rw [edges_to_adjacency_eq_scatter, hvlen,
    scatter_fold_sum _ src dst n hlen hbound hne hnodup src.length le_rfl]
  congr 1
  have hcongr : ∀ k ∈ Finset.range src.length,
      (find_cutset_edges mask (fun a => 1 - mask a) src dst).getD k 0
        = if spec_cut_edge mask ((src.zip dst).getD k (0, 0)).1
            ((src.zip dst).getD k (0, 0)).2 then (1 : ℚ) else 0 := by
    intro k hk
    have hk' := Finset.mem_range.mp hk
    rw [find_cutset_edges_getD mask src dst n hlen hbound hmin hmask hk',
      zip_getD_eq src dst hlen hk']
  rw [Finset.sum_congr rfl hcongr]
  unfold cut_edge_count
  rw [← hzlen]
  exact sum_indicator_filter (src.zip dst) (fun e => spec_cut_edge mask e.1 e.2)

/-- Helper for C1: entries of the adjacency minus the cut matrix are the
indicators of surviving (non-crossing) topology edges. -/
theorem adj_sub_cut_entry
    (mask : ℕ → ℚ) (adjacency : ℕ → ℕ → ℚ) (src dst : List ℕ) (n : ℕ)
    (hlen : dst.length = src.length)
    (hbound : ∀ e ∈ src.zip dst, e.1 < n ∧ e.2 < n)
    (hnodup : (src.zip dst).Pairwise (fun e f => e ≠ f ∧ e ≠ (f.2, f.1)))
    (hmin : min_node src dst = 0)
    (hmask : ∀ i, i < n → mask i = 0 ∨ mask i = 1)
    (hadj : ∀ i j, adjacency i j = if edge_mem src dst i j then 1 else 0)
    (i j : ℕ) :
    adjacency i j -
      edges_to_adjacency (find_cutset_edges mask (fun a => 1 - mask a) src dst) src dst n i j
      = if edge_mem src dst i j ∧ ¬ spec_cut_edge mask i j then 1 else 0 := by
  rw [hadj, cut_matrix_entry mask src dst n hlen hbound hnodup hmin hmask i j]
  by_cases hem : edge_mem src dst i j <;> by_cases hc : spec_cut_edge mask i j <;>
    simp [hem, hc]

/-- Helper for C1: the code's partition1 connectivity check is the claim's
gate for the side with mask value 1. -/
theorem gate_one_iff
    (mask : ℕ → ℚ) (adjacency : ℕ → ℕ → ℚ) (src dst : List ℕ) (n : ℕ)
    (hlen : dst.length = src.length)
    (hbound : ∀ e ∈ src.zip dst, e.1 < n ∧ e.2 < n)
    (hnodup : (src.zip dst).Pairwise (fun e f => e ≠ f ∧ e ≠ (f.2, f.1)))
    (hmin : min_node src dst = 0)
    (hmask : ∀ i, i < n → mask i = 0 ∨ mask i = 1)
    (hadj : ∀ i j, adjacency i j = if edge_mem src dst i j then 1 else 0) :
    (∀ j ∈ Finset.range n, 0 < mask j →
      0 < ∑ i ∈ Finset.range n,
        (if 0 < mask i * mask j then
          adjacency i j -
            edges_to_adjacency (find_cutset_edges mask (fun a => 1 - mask a) src dst)
              src dst n i j
        else 0))
    ↔ spec_gate mask 1 src dst n := by
  have hterm := adj_sub_cut_entry mask adjacency src dst n hlen hbound hnodup hmin hmask hadj
  have hnonneg : ∀ j, ∀ i ∈ Finset.range n, (0 : ℚ) ≤
      (if 0 < mask i * mask j then
        adjacency i j -
          edges_to_adjacency (find_cutset_edges mask (fun a => 1 - mask a) src dst)
            src dst n i j
      else 0) := by
    intro j i _
    by_cases hc : 0 < mask i * mask j
    · rw [if_pos hc, hterm i j]
      split_ifs <;> norm_num
    · rw [if_neg hc]
  constructor
  · intro hcode u hu hmu
    have h1 : (0 : ℚ) < mask u := by
      rw [hmu]
      norm_num
    have hsum := hcode u (Finset.mem_range.mpr hu) h1
    obtain ⟨i, hi, hpos⟩ := (sum_pos_iff_exists (hnonneg u)).mp hsum
    have hi' := Finset.mem_range.mp hi
    by_cases hc : 0 < mask i * mask u
    · rw [if_pos hc, hterm i u] at hpos
      by_cases hcond : edge_mem src dst i u ∧ ¬ spec_cut_edge mask i u
      · have hmi : mask i = 1 := by
          rcases hmask i hi' with h | h
          · rw [h, zero_mul] at hc
            exact absurd hc (lt_irrefl 0)
          · exact h
        exact ⟨i, hi', hmi, (edge_mem_symm src dst i u).mp hcond.1,
          fun hcu => hcond.2 ((spec_cut_edge_symm mask u i).mp hcu)⟩
      · rw [if_neg hcond] at hpos
        exact absurd hpos (lt_irrefl 0)
    · rw [if_neg hc] at hpos
      exact absurd hpos (lt_irrefl 0)
  · intro hgate j hjmem hmj
    have hj' := Finset.mem_range.mp hjmem
    have hmj1 : mask j = 1 := by
      rcases hmask j hj' with h | h
      · rw [h] at hmj
        exact absurd hmj (lt_irrefl 0)
      · exact h
    obtain ⟨v, hv, hmv, hem, hnc⟩ := hgate j hj' hmj1
    apply (sum_pos_iff_exists (hnonneg j)).mpr
    refine ⟨v, Finset.mem_range.mpr hv, ?_⟩
    rw [if_pos (by rw [hmv, hmj1]; norm_num), hterm v j,
      if_pos ⟨(edge_mem_symm src dst j v).mp hem,
        fun hc => hnc ((spec_cut_edge_symm mask v j).mp hc)⟩]
    norm_num

/-- Helper for C1: the code's partition2 connectivity check is the claim's
gate for the side with mask value 0. -/
theorem gate_zero_iff
    (mask : ℕ → ℚ) (adjacency : ℕ → ℕ → ℚ) (src dst : List ℕ) (n : ℕ)
    (hlen : dst.length = src.length)
    (hbound : ∀ e ∈ src.zip dst, e.1 < n ∧ e.2 < n)
    (hnodup : (src.zip dst).Pairwise (fun e f => e ≠ f ∧ e ≠ (f.2, f.1)))
    (hmin : min_node src dst = 0)
    (hmask : ∀ i, i < n → mask i = 0 ∨ mask i = 1)
    (hadj : ∀ i j, adjacency i j = if edge_mem src dst i j then 1 else 0) :
    (∀ j ∈ Finset.range n, 0 < 1 - mask j →
      0 < ∑ i ∈ Finset.range n,
        (if 0 < (1 - mask i) * (1 - mask j) then
          adjacency i j -
            edges_to_adjacency (find_cutset_edges mask (fun a => 1 - mask a) src dst)
              src dst n i j
        else 0))
    ↔ spec_gate mask 0 src dst n := by
  have hterm := adj_sub_cut_entry mask adjacency src dst n hlen hbound hnodup hmin hmask hadj
  have hnonneg : ∀ j, ∀ i ∈ Finset.range n, (0 : ℚ) ≤
      (if 0 < (1 - mask i) * (1 - mask j) then
        adjacency i j -
          edges_to_adjacency (find_cutset_edges mask (fun a => 1 - mask a) src dst)
            src dst n i j
      else 0) := by
    intro j i _
    by_cases hc : 0 < (1 - mask i) * (1 - mask j)
    · rw [if_pos hc, hterm i j]
      split_ifs <;> norm_num
    · rw [if_neg hc]
  constructor
  · intro hcode u hu hmu
    have h1 : (0 : ℚ) < 1 - mask u := by
      rw [hmu]
      norm_num
    have hsum := hcode u (Finset.mem_range.mpr hu) h1
    obtain ⟨i, hi, hpos⟩ := (sum_pos_iff_exists (hnonneg u)).mp hsum
    have hi' := Finset.mem_range.mp hi
    by_cases hc : 0 < (1 - mask i) * (1 - mask u)
    · rw [if_pos hc, hterm i u] at hpos
      by_cases hcond : edge_mem src dst i u ∧ ¬ spec_cut_edge mask i u
      · have hmi : mask i = 0 := by
          rcases hmask i hi' with h | h
          · exact h
          · rw [h] at hc
            norm_num at hc
        exact ⟨i, hi', hmi, (edge_mem_symm src dst i u).mp hcond.1,
          fun hcu => hcond.2 ((spec_cut_edge_symm mask u i).mp hcu)⟩
      · rw [if_neg hcond] at hpos
        exact absurd hpos (lt_irrefl 0)
    · rw [if_neg hc] at hpos
      exact absurd hpos (lt_irrefl 0)
  · intro hgate j hjmem hmj
    have hj' := Finset.mem_range.mp hjmem
    have hmj0 : mask j = 0 := by
      rcases hmask j hj' with h | h
      · exact h
      · rw [h] at hmj
        norm_num at hmj
    obtain ⟨v, hv, hmv, hem, hnc⟩ := hgate j hj' hmj0
    apply (sum_pos_iff_exists (hnonneg j)).mpr
    refine ⟨v, Finset.mem_range.mpr hv, ?_⟩
    rw [if_pos (by rw [hmv, hmj0]; norm_num), hterm v j,
      if_pos ⟨(edge_mem_symm src dst j v).mp hem,
        fun hc => hnc ((spec_cut_edge_symm mask v j).mp hc)⟩]
    norm_num

/-- Helper for C1: full characterization of calculate_congestion under a
well-formed topology — the code divides the crossing traffic by twice the
number of cutset edges, because the cut matrix carries every cut edge in
both orientations. -/
theorem calculate_congestion_eq
    (mask : ℕ → ℚ) (adjacency traffic : ℕ → ℕ → ℚ) (src dst : List ℕ) (n : ℕ)
    (hlen : dst.length = src.length)
    (hbound : ∀ e ∈ src.zip dst, e.1 < n ∧ e.2 < n)
    (hne : ∀ e ∈ src.zip dst, e.1 ≠ e.2)
    (hnodup : (src.zip dst).Pairwise (fun e f => e ≠ f ∧ e ≠ (f.2, f.1)))
    (hmin : min_node src dst = 0)
    (hmask : ∀ i, i < n → mask i = 0 ∨ mask i = 1)
    (hadj : ∀ i j, adjacency i j = if edge_mem src dst i j then 1 else 0) :
    calculate_congestion mask adjacency traffic src dst n
      = if 0 < cut_edge_count mask src dst ∧ spec_gate mask 1 src dst n ∧
            spec_gate mask 0 src dst n
        then traffic_crossing mask traffic n / (2 * (cut_edge_count mask src dst : ℚ))
        else 0 := by
  have hsize := cut_size_eq mask src dst n hlen hbound hne hnodup hmin hmask
  have hg1 := gate_one_iff mask adjacency src dst n hlen hbound hnodup hmin hmask hadj
  have hg0 := gate_zero_iff mask adjacency src dst n hlen hbound hnodup hmin hmask hadj
  have htc : (∑ i ∈ Finset.range n, ∑ j ∈ Finset.range n,
      traffic i j * (mask i * (1 - mask j))) = traffic_crossing mask traffic n := by
    unfold traffic_crossing
    exact Finset.sum_congr rfl (fun i _ => Finset.sum_congr rfl (fun j _ => by ring))
  simp only [calculate_congestion]
  simp only [hsize, htc, hg1, hg0]
  by_cases hcpos : 0 < cut_edge_count mask src dst
  · have hq : (0 : ℚ) < 2 * (cut_edge_count mask src dst : ℚ) := by
      have h1 : (0 : ℚ) < (cut_edge_count mask src dst : ℚ) := by exact_mod_cast hcpos
      linarith
    rw [if_pos hq]
    by_cases hgg : spec_gate mask 1 src dst n ∧ spec_gate mask 0 src dst n
    · rw [if_pos hgg, if_pos ⟨hcpos, hgg⟩, mul_one]
    · rw [if_neg hgg, mul_zero,
        if_neg (show ¬ (0 < cut_edge_count mask src dst ∧
          spec_gate mask 1 src dst n ∧ spec_gate mask 0 src dst n) from
          fun hx => hgg ⟨hx.2.1, hx.2.2⟩)]
  · have hc0 : cut_edge_count mask src dst = 0 := by omega
    have hq : ¬ (0 : ℚ) < 2 * (cut_edge_count mask src dst : ℚ) := by
      rw [hc0]
      norm_num
    rw [if_neg hq, zero_mul,
      if_neg (show ¬ (0 < cut_edge_count mask src dst ∧
        spec_gate mask 1 src dst n ∧ spec_gate mask 0 src dst n) from
        fun hx => hcpos hx.1)]

/-- C1 (amended): for a well-formed topology (matching edge list and binary
adjacency, no self-loops, pairwise-distinct undirected edges, minimum node
id 0) and a binary partition mask, calculate_congestion returns
traffic_crossing divided by twice the cutset edge count when the cutset is
nonempty and both connectivity gates pass, and 0 in every other case. The
factor 2 (absent from the claim as stated) arises because cut_size sums a
cut matrix that carries every cut edge in both orientations. -/
theorem calculate_congestion_corrected
    (mask : ℕ → ℚ) (adjacency traffic : ℕ → ℕ → ℚ) (src dst : List ℕ) (n : ℕ)
    (hlen : dst.length = src.length)
    (hbound : ∀ e ∈ src.zip dst, e.1 < n ∧ e.2 < n)
    (hne : ∀ e ∈ src.zip dst, e.1 ≠ e.2)
    (hnodup : (src.zip dst).Pairwise (fun e f => e ≠ f ∧ e ≠ (f.2, f.1)))
    (hmin : min_node src dst = 0)
    (hmask : ∀ i, i < n → mask i = 0 ∨ mask i = 1)
    (hadj : ∀ i j, adjacency i j = if edge_mem src dst i j then 1 else 0) :
    calculate_congestion mask adjacency traffic src dst n
      = if 0 < cut_edge_count mask src dst ∧ spec_gate mask 1 src dst n ∧
            spec_gate mask 0 src dst n
        then traffic_crossing mask traffic n / (2 * (cut_edge_count mask src dst : ℚ))
        else 0 :=
  calculate_congestion_eq mask adjacency traffic src dst n
    hlen hbound hne hnodup hmin hmask hadj

/-- Witness for C1 at the four-node ring with partition {0,1} | {2,3}: all
hypotheses hold and the theorem applies. -/
theorem calculate_congestion_corrected_witness :
    (ring4_dst.length = ring4_src.length ∧
      (∀ e ∈ ring4_src.zip ring4_dst, e.1 < 4 ∧ e.2 < 4) ∧
      (∀ e ∈ ring4_src.zip ring4_dst, e.1 ≠ e.2) ∧
      (ring4_src.zip ring4_dst).Pairwise (fun e f => e ≠ f ∧ e ≠ (f.2, f.1)) ∧
      min_node ring4_src ring4_dst = 0 ∧
      (∀ i, i < 4 → ring4_mask i = 0 ∨ ring4_mask i = 1)) ∧
    calculate_congestion ring4_mask ring4_adj ring4_traffic ring4_src ring4_dst 4
      = if 0 < cut_edge_count ring4_mask ring4_src ring4_dst ∧
            spec_gate ring4_mask 1 ring4_src ring4_dst 4 ∧
            spec_gate ring4_mask 0 ring4_src ring4_dst 4
        then traffic_crossing ring4_mask ring4_traffic 4 /
          (2 * (cut_edge_count ring4_mask ring4_src ring4_dst : ℚ))
        else 0 :=
  ⟨⟨by decide, by decide, by decide, by decide, by decide, by decide⟩,
    calculate_congestion_corrected ring4_mask ring4_adj ring4_traffic ring4_src ring4_dst 4
      (by decide) (by decide) (by decide) (by decide) (by decide) (by decide)
      (fun i j => rfl)⟩

/-- C1 counterexample: on the four-node ring with partition {0,1} | {2,3}
and all-ones off-diagonal traffic, the code returns 1 while the claim's
formula (traffic crossing divided by the cutset edge count, gates passing)
gives 2 — the claim as stated is false. -/
theorem calculate_congestion_claim_counterexample :
    calculate_congestion ring4_mask ring4_adj ring4_traffic ring4_src ring4_dst 4 = 1 ∧
    claim_congestion ring4_mask ring4_traffic ring4_src ring4_dst 4 = 2 ∧
    calculate_congestion ring4_mask ring4_adj ring4_traffic ring4_src ring4_dst 4 ≠
      claim_congestion ring4_mask ring4_traffic ring4_src ring4_dst 4 := by
  have htc : traffic_crossing ring4_mask ring4_traffic 4 = 4 := by
    unfold traffic_crossing
    norm_num [Finset.sum_range_succ, ring4_traffic, ring4_mask]
  have hcount : cut_edge_count ring4_mask ring4_src ring4_dst = 2 := by decide
  have hcode : calculate_congestion ring4_mask ring4_adj ring4_traffic ring4_src ring4_dst 4
      = 1 := by
    rw [calculate_congestion_eq ring4_mask ring4_adj ring4_traffic ring4_src ring4_dst 4
      (by decide) (by decide) (by decide) (by decide) (by decide) (by decide)
      (fun i j => rfl)]
    rw [if_pos ⟨by decide, by decide, by decide⟩, htc, hcount]
    norm_num
  have hclaim : claim_congestion ring4_mask ring4_traffic ring4_src ring4_dst 4 = 2 := by
    unfold claim_congestion
    rw [if_pos ⟨by decide, by decide, by decide⟩, htc, hcount]
    norm_num
  refine ⟨hcode, hclaim, ?_⟩
  rw [hcode, hclaim]
  norm_num

/-- Helper for C3: pointwise form of one propagation round. -/
theorem update_reachable_apply (g : ℕ → ℕ → ℚ) (n : ℕ) (r : ℕ → ℚ) (j : ℕ) :
    update_reachable g n r j
      = if 0 < ∑ i ∈ Finset.range n, r i * g i j then 1 else r j := rfl

/-- Helper for C3: iterated propagation keeps values in {0, 1}. -/
theorem iterate_update_val01 (g : ℕ → ℕ → ℚ) (n : ℕ) :
    ∀ r j, (update_reachable g n)^[r] (fun i => if i = 0 then (1 : ℚ) else 0) j = 0 ∨
      (update_reachable g n)^[r] (fun i => if i = 0 then (1 : ℚ) else 0) j = 1 := by
  intro r
  induction r with
  | zero =>
    intro j
    by_cases h : j = 0 <;> simp [h]
  | succ r ih =>
    intro j
    rw [Function.iterate_succ_apply', update_reachable_apply]
    by_cases hc : 0 < ∑ i ∈ Finset.range n,
        (update_reachable g n)^[r] (fun i => if i = 0 then (1 : ℚ) else 0) i * g i j
    · rw [if_pos hc]
      right
      rfl
    · rw [if_neg hc]
      exact ih j

/-- Helper for C3: after r rounds the propagation front is exactly the set
of nodes with a walk of length at most r from node 0. -/
theorem iterate_update_char (g : ℕ → ℕ → ℚ) (n : ℕ) (hg : ∀ i j, 0 ≤ g i j) :
    ∀ r j,
      (walk_le g n r j →
        (update_reachable g n)^[r] (fun i => if i = 0 then (1 : ℚ) else 0) j = 1) ∧
      (¬ walk_le g n r j →
        (update_reachable g n)^[r] (fun i => if i = 0 then (1 : ℚ) else 0) j = 0) := by
  intro r
  induction r with
  | zero =>
    intro j
    constructor
    · intro hw
      have hj : j = 0 := hw
      simp [hj]
    · intro hw
      have hj : ¬ j = 0 := hw
      simp [hj]
  | succ r ih =>
    intro j
    have hnonneg : ∀ i ∈ Finset.range n, (0 : ℚ) ≤
        (update_reachable g n)^[r] (fun i => if i = 0 then (1 : ℚ) else 0) i * g i j := by
      intro i _
      rcases iterate_update_val01 g n r i with h | h <;> rw [h]
      · rw [zero_mul]
      · rw [one_mul]
        exact hg i j
    have hsum : (0 < ∑ i ∈ Finset.range n,
        (update_reachable g n)^[r] (fun i => if i = 0 then (1 : ℚ) else 0) i * g i j) ↔
        ∃ i, i < n ∧ walk_le g n r i ∧ 0 < g i j := by
      rw [sum_pos_iff_exists hnonneg]
      constructor
      · rintro ⟨i, hi, hpos⟩
        have hi' := Finset.mem_range.mp hi
        rcases iterate_update_val01 g n r i with h | h
        · rw [h, zero_mul] at hpos
          exact absurd hpos (lt_irrefl 0)
        · refine ⟨i, hi', ?_, ?_⟩
          · by_contra hnw
            rw [(ih i).2 hnw] at h
            norm_num at h
          · rw [h, one_mul] at hpos
            exact hpos
      · rintro ⟨i, hi, hw, hpos⟩
        refine ⟨i, Finset.mem_range.mpr hi, ?_⟩
        rw [(ih i).1 hw, one_mul]
        exact hpos
    rw [Function.iterate_succ_apply', update_reachable_apply]
    constructor
    · intro hw
      rcases hw with hw | hex
      · by_cases hc : 0 < ∑ i ∈ Finset.range n,
            (update_reachable g n)^[r] (fun i => if i = 0 then (1 : ℚ) else 0) i * g i j
        · rw [if_pos hc]
        · rw [if_neg hc]
          exact (ih j).1 hw
      · rw [if_pos (hsum.mpr hex)]
    · intro hnw
      have hnw1 : ¬ walk_le g n r j := fun h => hnw (Or.inl h)
      have hnw2 : ¬ ∃ i, i < n ∧ walk_le g n r i ∧ 0 < g i j := fun h => hnw (Or.inr h)
      rw [if_neg (fun hc => hnw2 (hsum.mp hc))]
      exact (ih j).2 hnw1

/-- Helper for C3: the propagation front is monotone in the round count. -/
theorem walk_le_mono (g : ℕ → ℕ → ℚ) (n : ℕ) :
    ∀ r r' j, r ≤ r' → walk_le g n r j → walk_le g n r' j := by
  intro r r'
  induction r' with
  | zero =>
    intro j h hw
    have : r = 0 := by omega
    rw [this] at hw
    exact hw
  | succ r' ih =>
    intro j h hw
    by_cases hr : r ≤ r'
    · exact Or.inl (ih j hr hw)
    · have : r = r' + 1 := by omega
      rw [this] at hw
      exact hw

/-- Helper for C3: nodes with a bounded walk are reachable. -/
theorem walk_le_reaches (g : ℕ → ℕ → ℚ) (n : ℕ) :
    ∀ r j, walk_le g n r j → reaches g n j := by
  intro r
  induction r with
  | zero =>
    intro j hw
    have : j = 0 := hw
    rw [this]
    exact Relation.ReflTransGen.refl
  | succ r ih =>
    intro j hw
    rcases hw with hw | ⟨i, hi, hwi, hpos⟩
    · exact ih j hw
    · exact Relation.ReflTransGen.tail (ih i hwi) ⟨hi, hpos⟩

/-- Helper for C3: reachable nodes have a walk of some bounded length. -/
theorem reaches_walk_le (g : ℕ → ℕ → ℚ) (n : ℕ) :
    ∀ j, reaches g n j → ∃ r, walk_le g n r j := by
  intro j h
  induction h with
  | refl => exact ⟨0, rfl⟩
  | tail _ hbc ih =>
    obtain ⟨r, hr⟩ := ih
    exact ⟨r + 1, Or.inr ⟨_, hbc.1, hr, hbc.2⟩⟩

/-- Helper for C3: once one round adds nothing inside the node range, no
later round does. -/
theorem walk_le_stab (g : ℕ → ℕ → ℚ) (n : ℕ) (r : ℕ)
    (hstab : ∀ j, j < n → (walk_le g n (r + 1) j ↔ walk_le g n r j)) :
    ∀ m j, j < n → walk_le g n (r + m) j → walk_le g n r j := by
  intro m
  induction m with
  | zero =>
    intro j _ hw
    exact hw
  | succ m ih =>
    intro j hj hw
    rw [Nat.add_succ] at hw
    rcases hw with hw | ⟨i, hi, hwi, hpos⟩
    · exact ih j hj hw
    · exact (hstab j hj).mp (Or.inr ⟨i, hi, ih i hi hwi, hpos⟩)

/-- Helper for C3: within n - 1 rounds a stabilization point is reached. -/
theorem exists_stab_round (g : ℕ → ℕ → ℚ) (n : ℕ) (hn : 0 < n) :
    ∃ r, r ≤ n - 1 ∧ ∀ j, j < n → (walk_le g n (r + 1) j ↔ walk_le g n r j) := by
  by_contra hno
  push_neg at hno
  have hgrow : ∀ r, r ≤ n - 1 →
      ((Finset.range n).filter (fun j => walk_le g n r j)) ⊂
        ((Finset.range n).filter (fun j => walk_le g n (r + 1) j)) := by
    intro r hr
    obtain ⟨j, hj, hne'⟩ := hno r hr
    constructor
    · intro x hx
      simp only [Finset.mem_filter] at hx ⊢
      exact ⟨hx.1, Or.inl hx.2⟩
    · intro hsub
      rcases hne' with ⟨h1, h0⟩ | ⟨hna, hb⟩
      · have hjmem : j ∈ (Finset.range n).filter (fun j => walk_le g n (r + 1) j) := by
          simp only [Finset.mem_filter]
          exact ⟨Finset.mem_range.mpr hj, h1⟩
        have hmem2 := hsub hjmem
        simp only [Finset.mem_filter] at hmem2
        exact h0 hmem2.2
      · exact hna (Or.inl hb)
  have hcard : ∀ r, r ≤ n →
      r + 1 ≤ ((Finset.range n).filter (fun j => walk_le g n r j)).card := by
    intro r
    induction r with
    | zero =>
      intro _
      have h0 : (0 : ℕ) ∈ (Finset.range n).filter (fun j => walk_le g n 0 j) := by
        simp only [Finset.mem_filter]
        exact ⟨Finset.mem_range.mpr hn, rfl⟩
      have := Finset.card_pos.mpr ⟨0, h0⟩
      omega
    | succ r ih =>
      intro hr
      have h1 := ih (by omega)
      have h2 := Finset.card_lt_card (hgrow r (by omega))
      omega
  have h1 := hcard n le_rfl
  have h2 : ((Finset.range n).filter (fun j => walk_le g n n j)).card ≤ n := by
    calc ((Finset.range n).filter (fun j => walk_le g n n j)).card
        ≤ (Finset.range n).card := Finset.card_filter_le _ _
      _ = n := Finset.card_range n
  omega

/-- Helper for C3: for in-range nodes, reachability coincides with having a
walk of length at most n - 1. -/
theorem reaches_iff_walk_le (g : ℕ → ℕ → ℚ) (n : ℕ) {j : ℕ} (hj : j < n) :
    reaches g n j ↔ walk_le g n (n - 1) j := by
  constructor
  · intro hr
    obtain ⟨r, hw⟩ := reaches_walk_le g n j hr
    obtain ⟨r0, hr0, hstab⟩ := exists_stab_round g n (by omega)
    by_cases hle : r ≤ n - 1
    · exact walk_le_mono g n r (n - 1) j hle hw
    · have hsplit : r = r0 + (r - r0) := by omega
      rw [hsplit] at hw
      exact walk_le_mono g n r0 (n - 1) j hr0 (walk_le_stab g n r0 hstab (r - r0) j hj hw)
  · exact walk_le_reaches g n (n - 1) j

/-- C3: for every path row, partition1 returned by get_cutset_from_path is
the 0/1 indicator of reachability from node 0 in the remaining graph (the
full adjacency with the computed cutset edges removed) — the connected
component of node 0 — and partition2 is its complement. -/
theorem get_cutset_from_path_reachable
    (path_array : List ℚ) (adjacency : ℕ → ℕ → ℚ) (src dst : List ℕ) (n : ℕ)
    (hadj : ∀ i j, 0 ≤ adjacency i j) :
    ∀ j, j < n →
      (((get_cutset_from_path path_array adjacency src dst n).1 j = 1 ↔
        reaches (remaining_graph_of path_array adjacency src dst n) n j) ∧
      ((get_cutset_from_path path_array adjacency src dst n).1 j = 0 ↔
        ¬ reaches (remaining_graph_of path_array adjacency src dst n) n j) ∧
      ((get_cutset_from_path path_array adjacency src dst n).2 j
        = 1 - (get_cutset_from_path path_array adjacency src dst n).1 j)) := by
  intro j hj
  have hg : ∀ a b, 0 ≤ remaining_graph_of path_array adjacency src dst n a b := by
    intro a b
    simp only [remaining_graph_of]
    apply mul_nonneg (hadj a b)
    split_ifs <;> norm_num
  have hp1 : (get_cutset_from_path path_array adjacency src dst n).1
      = (update_reachable (remaining_graph_of path_array adjacency src dst n) n)^[n - 1]
        (fun i => if i = 0 then (1 : ℚ) else 0) := rfl
  have hchar := iterate_update_char (remaining_graph_of path_array adjacency src dst n) n hg
    (n - 1) j
  have hval := iterate_update_val01 (remaining_graph_of path_array adjacency src dst n) n
    (n - 1) j
  have hiff := reaches_iff_walk_le (remaining_graph_of path_array adjacency src dst n) n hj
  refine ⟨?_, ?_, rfl⟩
  · rw [hp1]
    constructor
    · intro h1
      apply hiff.mpr
      by_contra hnw
      rw [hchar.2 hnw] at h1
      norm_num at h1
    · intro hr
      exact hchar.1 (hiff.mp hr)
  · rw [hp1]
    constructor
    · intro h0
      intro hr
      rw [hchar.1 (hiff.mp hr)] at h0
      norm_num at h0
    · intro hnr
      exact hchar.2 (fun hw => hnr (walk_le_reaches _ n (n - 1) j hw))

/-- Helper for the C3 witness: the triangle adjacency is nonnegative. -/
theorem tri_adj_nonneg : ∀ i j, (0 : ℚ) ≤ tri_adj i j := by
  intro i j
  unfold tri_adj
  split_ifs <;> norm_num

/-- Witness for C3 at the triangle with the path row selecting edge (0,1):
the hypotheses hold at node 2 and the theorem applies. -/
theorem get_cutset_from_path_reachable_witness :
    ((∀ i j, (0 : ℚ) ≤ tri_adj i j) ∧ (2 : ℕ) < 3) ∧
    (((get_cutset_from_path tri_path tri_adj tri_src tri_dst 3).1 2 = 1 ↔
      reaches (remaining_graph_of tri_path tri_adj tri_src tri_dst 3) 3 2) ∧
    ((get_cutset_from_path tri_path tri_adj tri_src tri_dst 3).1 2 = 0 ↔
      ¬ reaches (remaining_graph_of tri_path tri_adj tri_src tri_dst 3) 3 2) ∧
    ((get_cutset_from_path tri_path tri_adj tri_src tri_dst 3).2 2
      = 1 - (get_cutset_from_path tri_path tri_adj tri_src tri_dst 3).1 2)) :=
  ⟨⟨tri_adj_nonneg, by decide⟩,
    get_cutset_from_path_reachable tri_path tri_adj tri_src tri_dst 3 tri_adj_nonneg 2
      (by decide)⟩

/-- Witness for C7: "RWA" is recognized case-insensitively and yields the
statistics-wrapped environment. -/
theorem define_env_error_iff_witness :
    (str_lower "RWA" = "vone".data ∨ str_lower "RWA" ∈ rsa_family_types.map String.data) ∧
    ∃ ep, define_env "RWA" = Except.ok ep ∧ ep.1.log_wrapped = true :=
  ⟨Or.inr (by decide), (define_env_error_iff "RWA").2 (Or.inr (by decide))⟩
